import Mathlib

set_option linter.unusedVariables false

/-!
Shallow embedding of the disk-backed hinted-handoff queue of
`cmd/kateway/hh/disk/queue.go` (gafka).  The queue logic is translated from
the source file.  The segment, cursor and block internals
(`segment.go`, `cursor.go`, `block.go`) are not among the provided sources;
those operations are modelled from the specification (sections 4.1-4.3) and
each carries a doc comment saying so.
-/

namespace Gafka

/-- A key/value block (spec section 4.1): framed on disk as
magic(2) keyLen(4) valueLen(4) key value crc(4). -/
structure Block where
  key : List Nat
  value : List Nat
deriving DecidableEq

/-- Modelled from the spec: `block.size()` is the total framed byte length,
2 + 4 + 4 + keyLen + valueLen + 4. -/
def Block.size (b : Block) : Int := 14 + b.key.length + b.value.length

/-- One framed record region inside a segment file: either a well-formed
block or a damaged region (magic/CRC mismatch) of a given byte length. -/
inductive Rec where
  | ok (b : Block)
  | corrupt (len : Nat)
deriving DecidableEq

def Rec.size : Rec → Int
  | .ok b => b.size
  | .corrupt len => len

def Rec.isOk : Rec → Bool
  | .ok _ => true
  | .corrupt _ => false

/-- Error taxonomy of the queue subsystem (spec section 7). -/
inductive QErr where
  | EOF
  | EOQ
  | SegmentFull
  | SegmentCorrupt
  | QueueFull
  | QueueNotOpen
  | HeadIsTail
  | CursorOutOfRange
deriving DecidableEq

/-- Total framed byte length of a record list. -/
def recsSize : List Rec → Int
  | [] => 0
  | r :: rs => r.size + recsSize rs

/-- The well-formed blocks of a record list, in order. -/
def okBlocks : List Rec → List Block
  | [] => []
  | .ok b :: rs => b :: okBlocks rs
  | .corrupt _ :: rs => okBlocks rs

/-- Modelled from the spec: reading one framed record at byte position `pos`.
Clean end of data yields `io.EOF`; a record failing the magic/CRC check (or a
misaligned position, which reads garbage framing) yields `ErrSegmentCorrupt`. -/
def recsReadAt : List Rec → Int → Except QErr Block
  | [], _ => .error .EOF
  | r :: rs, pos =>
    if pos = 0 then
      match r with
      | .ok b => .ok b
      | .corrupt _ => .error .SegmentCorrupt
    else if pos < 0 then .error .SegmentCorrupt
    else recsReadAt rs (pos - r.size)

/-- The suffix of a record list starting at byte position `pos`
(meaningful when `pos` sits on a record boundary). -/
def recsAfter : List Rec → Int → List Rec
  | [], _ => []
  | r :: rs, pos => if pos ≤ 0 then r :: rs else recsAfter rs (pos - r.size)

/-- `pos` is a record boundary (a prefix byte sum) of the record list. -/
def isAligned : List Rec → Int → Bool
  | [], pos => pos == 0
  | r :: rs, pos => pos == 0 || (decide (0 < pos) && isAligned rs (pos - r.size))

/-- Modelled from the spec (section 4.2): one segment file.  `recs` is the
framed content of the file, `readPos` the read position shared with the
cursor, `maxSize` the soft size cap. -/
structure Segment where
  id : Nat
  recs : List Rec
  maxSize : Int
  readPos : Int
  lastModified : Int
deriving DecidableEq

def Segment.DiskUsage (s : Segment) : Int := recsSize s.recs

/-- Modelled from the spec: `segment.Append` writes the framed block at end of
file, unless `diskUsage + b.size() > maxSize`, in which case it returns
`ErrSegmentFull` and writes nothing.  `lastModified` is updated on success. -/
def Segment.Append (s : Segment) (now : Int) (b : Block) : Option QErr × Segment :=
  if s.maxSize < s.DiskUsage + b.size then (some .SegmentFull, s)
  else (none, { s with recs := s.recs ++ [.ok b], lastModified := now })

/-- Modelled from the spec: `segment.ReadOne` reads one framed record at the
current read position; the read position advances on success only. -/
def Segment.ReadOne (s : Segment) : Except QErr Block × Segment :=
  match recsReadAt s.recs s.readPos with
  | .ok b => (.ok b, { s with readPos := s.readPos + b.size })
  | .error e => (.error e, s)

/-- Modelled from the spec: `segment.Seek` sets the read position. -/
def Segment.Seek (s : Segment) (off : Int) : Segment := { s with readPos := off }

/-- The durable read pointer (spec section 4.3): segment id and byte offset. -/
structure Cursor where
  segId : Nat
  offset : Int
deriving DecidableEq

/-- The queue of `queue.go`.  `head` is `segments.head?`; the tail is kept as
an explicit id because `queue.Next`'s corrupt-tail branch can leave it behind
the last list element.  A `none` cursor or tail models the nil pointers of a
not-yet-opened or closed queue. -/
structure Queue where
  segments : List Segment
  tailId : Option Nat
  cursor : Option Cursor
  maxSegmentSize : Int
  maxSize : Int
  maxAge : Int
  appendN : Int
  deliverN : Int
  inflights : Int
  emptyInflight : Bool
deriving DecidableEq

/-- Look a segment up by id in the queue's list. -/
def findSeg (q : Queue) (i : Nat) : Option Segment :=
  q.segments.find? (fun s => s.id == i)

/-- Replace the segment with id `i` (models mutating a segment in place). -/
def updSeg (q : Queue) (i : Nat) (f : Segment → Segment) : Queue :=
  { q with segments := q.segments.map (fun s => if s.id == i then f s else s) }

def sumSizes : List Segment → Int
  | [] => 0
  | s :: t => s.DiskUsage + sumSizes t

/-- `queue.diskUsage` (queue.go 355-361): total size on disk used by the queue. -/
def Queue.diskUsage (q : Queue) : Int := sumSizes q.segments

/-- `queue.nextSegmentID` (queue.go 418-443): one beyond the largest id
present in the queue directory. -/
def Queue.nextSegmentID (q : Queue) : Nat :=
  (q.segments.foldl (fun m s => max m s.id) 0) + 1

/-- `queue.addSegment` (queue.go 401-415): creates a new empty segment file
and appends it to the segment list. -/
def Queue.addSegment (q : Queue) (now : Int) : Segment × Queue :=
  let s : Segment := ⟨q.nextSegmentID, [], q.maxSegmentSize, 0, now⟩
  (s, { q with segments := q.segments ++ [s] })

/-- `queue.Append` (queue.go 245-281).  Admission check, then append at the
tail; on `ErrSegmentFull` roll to a fresh segment and retry exactly once. -/
def Queue.Append (q : Queue) (now : Int) (b : Block) : Option QErr × Queue :=
  match q.tailId with
  | none => (some .QueueNotOpen, q)
  | some t =>
    if 0 < q.maxSize ∧ q.maxSize < q.diskUsage + b.size then (some .QueueFull, q)
    else
      match findSeg q t with
      | none => (some .QueueNotOpen, q)
      | some tl =>
        match tl.Append now b with
        | (some .SegmentFull, _) =>
          let p := q.addSegment now
          let q2 := { p.2 with tailId := some p.1.id }
          match p.1.Append now b with
          | (some e, _) => (some e, q2)
          | (none, ns) =>
            (none, { updSeg q2 p.1.id (fun _ => ns) with
                     emptyInflight := false,
                     appendN := q2.appendN + 1,
                     inflights := q2.inflights + 1 })
        | (some e, _) => (some e, q)
        | (none, tl2) =>
          (none, { updSeg q t (fun _ => tl2) with
                   emptyInflight := false,
                   appendN := q.appendN + 1,
                   inflights := q.inflights + 1 })

/-- `queue.Rollback` (queue.go 283-292): `cursor.advanceOffset(-b.size())`
(which asserts the offset stays non-negative, spec section 4.3), clear
`emptyInflight`, seek the cursor's segment back.  A nil cursor would
dereference nil in the source; the model returns `ErrQueueNotOpen` in that
never-exercised case. -/
def Queue.Rollback (q : Queue) (b : Block) : Option QErr × Queue :=
  match q.cursor with
  | none => (some .QueueNotOpen, q)
  | some c =>
    if c.offset - b.size < 0 then (some .CursorOutOfRange, q)
    else
      (none, { updSeg q c.segId (fun s => s.Seek (c.offset - b.size)) with
               cursor := some ⟨c.segId, c.offset - b.size⟩,
               emptyInflight := false })

/-- Modelled from the spec: `cursor.advanceSegment` moves the cursor to the
first segment in the queue's list with id strictly greater than the current
one, at offset 0, seeking that segment; `none` when no such segment exists. -/
def Queue.advanceSegment (q : Queue) : Option Queue :=
  match q.cursor with
  | none => none
  | some c =>
    match q.segments.find? (fun s => decide (c.segId < s.id)) with
    | none => none
    | some s =>
      some { updSeg q s.id (fun x => x.Seek 0) with cursor := some ⟨s.id, 0⟩ }

/-- The body of `queue.Next`'s for loop (queue.go 294-348), fuelled (each
iteration that continues strictly increases the cursor's segment id, so
`segments.length + 1` units of fuel always suffice).  The corrupt-tail branch
reproduces the source faithfully: the source tests the outer `err` variable
(which holds `ErrSegmentCorrupt`, hence is non-nil) instead of the
`addSegment` error, so it returns `segerr` (nil on success) without
installing the new segment as tail and without advancing the cursor; the
caller's scratch block `bIn` is returned unfilled. -/
def nextLoop (now : Int) (bIn : Block) : Nat → Queue → Except QErr Block × Queue
  | 0, q => (.error .EOQ, q)
  | fuel + 1, q =>
    match q.cursor with
    | none => (.error .QueueNotOpen, q)
    | some c =>
      match findSeg q c.segId with
      | none => (.error .QueueNotOpen, q)
      | some seg =>
        match recsReadAt seg.recs seg.readPos with
        | .ok b =>
          let q2 := { updSeg q c.segId (fun s => { s with readPos := s.readPos + b.size }) with
                      emptyInflight := false }
          if c.offset + b.size < 0 then (.error .CursorOutOfRange, q2)
          else (.ok b, { q2 with cursor := some ⟨c.segId, c.offset + b.size⟩ })
        | .error .SegmentCorrupt =>
          match q.tailId with
          | none => (.error .QueueNotOpen, q)
          | some t =>
            if seg.id = t then
              (.ok bIn, (q.addSegment now).2)
            else
              match q.advanceSegment with
              | none => (.error .EOQ, { q with emptyInflight := true })
              | some q3 => nextLoop now bIn fuel q3
        | .error .EOF =>
          match q.advanceSegment with
          | none => (.error .EOQ, { q with emptyInflight := true })
          | some q3 => nextLoop now bIn fuel q3
        | .error e => (.error e, q)

/-- `queue.Next` (queue.go 294-348). -/
def Queue.Next (q : Queue) (now : Int) (bIn : Block) : Except QErr Block × Queue :=
  nextLoop now bIn (q.segments.length + 1) q

/-- `queue.EmptyInflight` (queue.go 350-352). -/
def Queue.EmptyInflight (q : Queue) : Bool := q.emptyInflight

/-- `queue.Close` (queue.go 156-180): closes all segments, dumps the cursor,
clears the in-memory state (file I/O itself is not modelled). -/
def Queue.Close (q : Queue) : Queue :=
  { q with segments := [], tailId := none, cursor := none }

/-- `newQueue` (queue.go 78-91): a created-but-unopened queue.  The segment
size cap is a parameter here (the source hardcodes `defaultSegmentSize`). -/
def newQueue (maxSegmentSize maxSize maxAge : Int) : Queue :=
  { segments := [], tailId := none, cursor := none,
    maxSegmentSize := maxSegmentSize, maxSize := maxSize, maxAge := maxAge,
    appendN := 0, deliverN := 0, inflights := 0, emptyInflight := false }

/-- `queue.trimHead` (queue.go 449-462): refuses when a single segment
remains, otherwise drops the head segment and deletes its file. -/
def Queue.trimHead (q : Queue) : Option QErr × Queue :=
  if q.segments.length ≤ 1 then (some .HeadIsTail, q)
  else (none, { q with segments := q.segments.tail })

/-- The guard of `queue.Purge`'s loop (queue.go 226-227):
`cursor.SegmentID > head.id` and the head is older than `maxAge`. -/
def purgeCond (q : Queue) (now : Int) : Bool :=
  match q.cursor, q.segments.head? with
  | some c, some h => decide (h.id < c.segId) && decide (h.lastModified + q.maxAge < now)
  | _, _ => false

def purgeLoop (now : Int) : Nat → Queue → Queue
  | 0, q => q
  | n + 1, q => if purgeCond q now then purgeLoop now n (q.trimHead).2 else q

/-- `queue.Purge` (queue.go 216-234); the source loop discards `trimHead`'s
error, and terminates because trimming stops once the head reaches the
cursor's segment, so `segments.length` units of fuel suffice. -/
def Queue.Purge (q : Queue) (now : Int) : Queue :=
  if q.segments.length ≤ 1 then q else purgeLoop now q.segments.length q

/-- `queue.loadSegments` (queue.go 365-397): keep the on-disk segments whose
id is at least `minId` (directory order = id order, names are zero-padded). -/
def loadSegments (disk : List Segment) (minId : Nat) : List Segment :=
  disk.filter (fun s => decide (minId ≤ s.id))

/-- The segments loaded by `queue.Open`: those with id at least the
checkpoint, or a single fresh one (id = largest on-disk id + 1, so 1 for an
empty directory) when none qualifies. -/
def openSegs (maxSegmentSize : Int) (disk : List Segment) (ckpt : Option Cursor)
    (now : Int) : List Segment :=
  let minId : Nat := match ckpt with | none => 0 | some c => c.segId
  let loaded := loadSegments disk minId
  if loaded.isEmpty then
    [⟨(disk.foldl (fun m s => max m s.id) 0) + 1, [], maxSegmentSize, 0, now⟩]
  else loaded

/-- Modelled from the spec (section 4.3): `cursor.initPosition` resolves the
checkpoint against the loaded segments (head at offset 0 when the cursor file
was missing or stale). -/
def openCursor (segs : List Segment) (ckpt : Option Cursor) : Cursor :=
  let headId : Nat := match segs.head? with | some h => h.id | none => 0
  match ckpt with
  | none => ⟨headId, 0⟩
  | some ck =>
    match segs.find? (fun s => s.id == ck.segId) with
    | some _ => ⟨ck.segId, ck.offset⟩
    | none =>
      match segs.find? (fun s => decide (ck.segId ≤ s.id)) with
      | some s => ⟨s.id, 0⟩
      | none => ⟨headId, 0⟩

/-- `queue.Open` (queue.go 94-145).  `disk` is the directory content sorted by
file name (hence by id); `ckpt` is the checkpoint read by `cursor.open`,
`none` when the cursor file is missing or corrupt (then the cursor moves to
head).  The queue's counters start at zero; `prevFlag` is the `emptyInflight`
value the queue object already had, which the source leaves in place unless
the cursor is away from the end of the tail (see openQueue below). -/
def openTailIdDoc : Unit := ()
def openTailId (segs2 : List Segment) : Option Nat :=
  match segs2.getLast? with
  | some t => some t.id
  | none => none

/-- The `emptyInflight` value after `queue.Open`: cleared unless the cursor
sits exactly at the end of the tail segment, in which case the queue object's
previous value is kept (the source only ever clears the flag here). -/
def openFlag (segs2 : List Segment) (c : Cursor) (prevFlag : Bool) : Bool :=
  match segs2.getLast? with
  | some t => if (c.segId == t.id) && (c.offset == t.DiskUsage) then prevFlag else false
  | none => false

/-- The seeked segment list produced by `queue.Open`. -/
def openSegs2 (maxSegmentSize : Int) (disk : List Segment) (ckpt : Option Cursor)
    (now : Int) : List Segment :=
  let segs := openSegs maxSegmentSize disk ckpt now
  let c := openCursor segs ckpt
  segs.map (fun s => if s.id == c.segId then s.Seek c.offset else s)

/-- `queue.Open` (queue.go 94-145).  `disk` is the directory content sorted by
file name (hence by id); `ckpt` is the checkpoint read by `cursor.open`,
`none` when the cursor file is missing or corrupt (then the cursor moves to
head).  The queue's counters start at zero; `prevFlag` is the `emptyInflight`
value the queue object already had, which the source leaves in place unless
the cursor is away from the end of the tail. -/
def openQueue (maxSegmentSize maxSize maxAge : Int) (prevFlag : Bool)
    (disk : List Segment) (ckpt : Option Cursor) (now : Int) : Queue :=
  { segments := openSegs2 maxSegmentSize disk ckpt now,
    tailId := openTailId (openSegs2 maxSegmentSize disk ckpt now),
    cursor := some (openCursor (openSegs maxSegmentSize disk ckpt now) ckpt),
    maxSegmentSize := maxSegmentSize, maxSize := maxSize, maxAge := maxAge,
    appendN := 0, deliverN := 0, inflights := 0,
    emptyInflight := openFlag (openSegs2 maxSegmentSize disk ckpt now)
      (openCursor (openSegs maxSegmentSize disk ckpt now) ckpt) prevFlag }

/-- The cursor sits at the very end of the tail segment (the comparison the
source makes at the end of `queue.Open`). -/
def atEndOfTail (q : Queue) : Bool :=
  match q.cursor, q.tailId with
  | some c, some t =>
    match findSeg q t with
    | some tl => (c.segId == t) && (c.offset == tl.DiskUsage)
    | none => false
  | _, _ => false

/-- `maxBlockSize` (consts.go line 13): 1 MiB. -/
def maxBlockSize : Int := 1 <<< 20

/-- `defaultSegmentSize` (consts.go line 12): 10 MiB. -/
def defaultSegmentSize : Int := 10 <<< 20

/-! ### Basic facts about sizes, alignment and record lists -/

theorem Block.size_pos (b : Block) : 0 < b.size := by
  simp only [Block.size]; omega

theorem Rec.size_nonneg (r : Rec) : 0 ≤ r.size := by
  cases r with
  | ok b => exact le_of_lt b.size_pos
  | corrupt len => simp [Rec.size]

theorem Rec.size_pos_of_isOk {r : Rec} (h : r.isOk = true) : 0 < r.size := by
  cases r with
  | ok b => exact b.size_pos
  | corrupt len => simp [Rec.isOk] at h

theorem recsSize_nonneg (rs : List Rec) : 0 ≤ recsSize rs := by
  induction rs with
  | nil => simp [recsSize]
  | cons r t ih => simp only [recsSize]; have := r.size_nonneg; omega

theorem recsSize_append (rs ts : List Rec) :
    recsSize (rs ++ ts) = recsSize rs + recsSize ts := by
  induction rs with
  | nil => simp [recsSize]
  | cons r t ih =>
    show r.size + recsSize (t ++ ts) = r.size + recsSize t + recsSize ts
    rw [ih]; ring

theorem okBlocks_append (rs ts : List Rec) :
    okBlocks (rs ++ ts) = okBlocks rs ++ okBlocks ts := by
  induction rs with
  | nil => simp [okBlocks]
  | cons r t ih => cases r <;> simp [okBlocks, ih]

theorem isAligned_zero (rs : List Rec) : isAligned rs 0 = true := by
  cases rs <;> simp [isAligned]

theorem isAligned_nonneg {rs : List Rec} {pos : Int} (h : isAligned rs pos = true) :
    0 ≤ pos := by
  cases rs with
  | nil => simp [isAligned] at h; omega
  | cons r t =>
    simp only [isAligned, Bool.or_eq_true, Bool.and_eq_true, beq_iff_eq,
      decide_eq_true_eq] at h
    rcases h with h | ⟨h, _⟩ <;> omega

theorem isAligned_le {rs : List Rec} {pos : Int} (h : isAligned rs pos = true) :
    pos ≤ recsSize rs := by
  induction rs generalizing pos with
  | nil => simp [isAligned] at h; simp [recsSize, h]
  | cons r t ih =>
    simp only [isAligned, Bool.or_eq_true, Bool.and_eq_true, beq_iff_eq,
      decide_eq_true_eq] at h
    simp only [recsSize]
    rcases h with h | ⟨h1, h2⟩
    · have := recsSize_nonneg t; have := r.size_nonneg; omega
    · have := ih h2; omega

theorem recsAfter_zero (rs : List Rec) : recsAfter rs 0 = rs := by
  cases rs <;> simp [recsAfter]

theorem aligned_readAt {rs : List Rec} {pos : Int} (h : isAligned rs pos = true) :
    recsReadAt rs pos =
      (match recsAfter rs pos with
       | [] => .error .EOF
       | .ok b :: _ => .ok b
       | .corrupt _ :: _ => .error .SegmentCorrupt) := by
  induction rs generalizing pos with
  | nil => simp [isAligned] at h; simp [recsReadAt, recsAfter]
  | cons r t ih =>
    simp only [isAligned, Bool.or_eq_true, Bool.and_eq_true, beq_iff_eq,
      decide_eq_true_eq] at h
    rcases h with h | ⟨h1, h2⟩
    · subst h; simp only [recsReadAt, recsAfter, if_pos rfl]
      cases r <;> simp
    · have hne : pos ≠ 0 := by omega
      have hnn : ¬pos < 0 := by omega
      have hle : ¬pos ≤ 0 := by omega
      simp only [recsReadAt, recsAfter, if_neg hne, if_neg hnn, if_neg hle]
      exact ih h2

theorem mem_of_mem_recsAfter {rs : List Rec} {pos : Int} {x : Rec}
    (h : x ∈ recsAfter rs pos) : x ∈ rs := by
  induction rs generalizing pos with
  | nil => simp [recsAfter] at h
  | cons r t ih =>
    by_cases hle : pos ≤ 0
    · simpa [recsAfter, hle] using h
    · simp only [recsAfter, if_neg hle] at h
      exact List.mem_cons_of_mem _ (ih h)

theorem aligned_after_cons {rs : List Rec} {pos : Int} {r : Rec} {tl : List Rec}
    (hpos : ∀ x ∈ rs, 0 < x.size)
    (h : isAligned rs pos = true) (he : recsAfter rs pos = r :: tl) :
    isAligned rs (pos + r.size) = true ∧ recsAfter rs (pos + r.size) = tl := by
  have hrpos : 0 < r.size := by
    refine hpos r (@mem_of_mem_recsAfter rs pos r ?_)
    rw [he]; exact List.mem_cons_self _ _
  induction rs generalizing pos with
  | nil => simp [recsAfter] at he
  | cons x t ih =>
    simp only [isAligned, Bool.or_eq_true, Bool.and_eq_true, beq_iff_eq,
      decide_eq_true_eq] at h
    rcases h with h | ⟨h1, h2⟩
    · subst h
      simp only [recsAfter, if_pos (le_refl (0 : Int))] at he
      cases he
      constructor
      · simp only [isAligned, Bool.or_eq_true, Bool.and_eq_true, beq_iff_eq,
          decide_eq_true_eq]
        right
        refine ⟨by omega, ?_⟩
        simp only [zero_add, sub_self]
        exact isAligned_zero tl
      · simp only [recsAfter, if_neg (by omega : ¬(0 : Int) + r.size ≤ 0)]
        simp only [zero_add, sub_self]
        exact recsAfter_zero tl
    · have hle : ¬pos ≤ 0 := by omega
      simp only [recsAfter, if_neg hle] at he
      obtain ⟨ha, hb⟩ := ih (fun y hy => hpos y (List.mem_cons_of_mem _ hy)) h2 he
      constructor
      · simp only [isAligned, Bool.or_eq_true, Bool.and_eq_true, beq_iff_eq,
          decide_eq_true_eq]
        right
        refine ⟨by omega, ?_⟩
        have heq : pos + r.size - x.size = pos - x.size + r.size := by ring
        rw [heq]; exact ha
      · simp only [recsAfter, if_neg (by omega : ¬pos + r.size ≤ 0)]
        have heq : pos + r.size - x.size = pos - x.size + r.size := by ring
        rw [heq]; exact hb

theorem recsAfter_append {rs : List Rec} {pos : Int} (ext : List Rec)
    (h : isAligned rs pos = true) :
    recsAfter (rs ++ ext) pos = recsAfter rs pos ++ ext := by
  induction rs generalizing pos with
  | nil =>
    simp only [isAligned, beq_iff_eq] at h
    subst h
    simp [recsAfter_zero, recsAfter]
  | cons r t ih =>
    simp only [isAligned, Bool.or_eq_true, Bool.and_eq_true, beq_iff_eq,
      decide_eq_true_eq] at h
    rcases h with h | ⟨h1, h2⟩
    · subst h
      rw [recsAfter_zero, recsAfter_zero]
    · have hle : ¬pos ≤ 0 := by omega
      simp only [List.cons_append, recsAfter, if_neg hle]
      exact ih h2

theorem isAligned_append {rs : List Rec} {pos : Int} (ext : List Rec)
    (h : isAligned rs pos = true) : isAligned (rs ++ ext) pos = true := by
  induction rs generalizing pos with
  | nil =>
    simp only [isAligned, beq_iff_eq] at h
    subst h
    simp [isAligned_zero]
  | cons r t ih =>
    simp only [isAligned, Bool.or_eq_true, Bool.and_eq_true, beq_iff_eq,
      decide_eq_true_eq] at h
    simp only [List.cons_append, isAligned, Bool.or_eq_true, Bool.and_eq_true,
      beq_iff_eq, decide_eq_true_eq]
    rcases h with h | ⟨h1, h2⟩
    · exact Or.inl h
    · exact Or.inr ⟨h1, ih h2⟩

/-! ### Sorted segment lists -/

/-- The segment list is strictly sorted by id (the directory order of the
zero-padded file names). -/
def sortedIds : List Segment → Bool
  | [] => true
  | [_] => true
  | a :: b :: t => decide (a.id < b.id) && sortedIds (b :: t)

theorem sorted_tail {x : Segment} {xs : List Segment}
    (h : sortedIds (x :: xs) = true) : sortedIds xs = true := by
  cases xs with
  | nil => rfl
  | cons y ys =>
    simp only [sortedIds, Bool.and_eq_true] at h
    exact h.2

theorem sorted_head_lt {x : Segment} {xs : List Segment}
    (h : sortedIds (x :: xs) = true) : ∀ s ∈ xs, x.id < s.id := by
  induction xs generalizing x with
  | nil => intro s hs; simp at hs
  | cons y ys ih =>
    simp only [sortedIds, Bool.and_eq_true, decide_eq_true_eq] at h
    intro s hs
    rcases List.mem_cons.mp hs with rfl | hs
    · exact h.1
    · exact lt_trans h.1 (ih h.2 s hs)

theorem mem_of_getLast? {α : Type _} {l : List α} {a : α}
    (h : l.getLast? = some a) : a ∈ l := by
  obtain ⟨ys, rfl⟩ := List.getLast?_eq_some_iff.mp h
  exact List.mem_append_right ys (List.mem_cons_self _ _)

theorem sorted_le_last {l : List Segment} {z : Segment}
    (hs : sortedIds l = true) (hz : l.getLast? = some z) :
    ∀ s ∈ l, s.id ≤ z.id := by
  induction l with
  | nil => intro s h; simp at h
  | cons x xs ih =>
    intro s hmem
    cases xs with
    | nil =>
      simp only [List.getLast?_singleton, Option.some_inj] at hz
      subst hz
      simp only [List.mem_singleton] at hmem
      simp [hmem]
    | cons y ys =>
      have hz' : (y :: ys).getLast? = some z := by
        simpa [List.getLast?_cons_cons] using hz
      rcases List.mem_cons.mp hmem with rfl | hmem
      · have : z ∈ y :: ys := mem_of_getLast? hz'
        exact le_of_lt (sorted_head_lt hs z this)
      · exact ih (sorted_tail hs) hz' s hmem

theorem findSeg_sorted_mem {l : List Segment} {s : Segment}
    (hs : sortedIds l = true) (hmem : s ∈ l) :
    l.find? (fun x => x.id == s.id) = some s := by
  induction l with
  | nil => simp at hmem
  | cons x xs ih =>
    rcases List.mem_cons.mp hmem with rfl | hmem
    · exact List.find?_cons_of_pos _ (by simp)
    · have hlt : x.id < s.id := sorted_head_lt hs s hmem
      rw [List.find?_cons_of_neg _ (by simp [Nat.ne_of_lt hlt])]
      exact ih (sorted_tail hs) hmem

theorem sorted_map {l : List Segment} {g : Segment → Segment}
    (hg : ∀ s, (g s).id = s.id) : sortedIds (l.map g) = sortedIds l := by
  induction l with
  | nil => rfl
  | cons x xs ih =>
    cases xs with
    | nil => rfl
    | cons y ys =>
      simp only [List.map_cons, sortedIds, hg]
      rw [show (g y :: List.map g ys) = List.map g (y :: ys) from rfl, ih]

theorem sorted_append_one {l : List Segment} {y : Segment}
    (hs : sortedIds l = true) (hy : ∀ s ∈ l, s.id < y.id) :
    sortedIds (l ++ [y]) = true := by
  induction l with
  | nil => rfl
  | cons x xs ih =>
    cases xs with
    | nil =>
      simp only [List.cons_append, List.nil_append, sortedIds, Bool.and_eq_true,
        decide_eq_true_eq]
      exact ⟨hy x (List.mem_cons_self _ _), trivial⟩
    | cons z zs =>
      simp only [List.cons_append, sortedIds, Bool.and_eq_true, decide_eq_true_eq] at hs ⊢
      refine ⟨hs.1, ?_⟩
      have := ih hs.2 (fun s h => hy s (List.mem_cons_of_mem _ h))
      simpa using this

/-! ### fold-max and filter-length helpers -/

theorem foldmax_init_le (l : List Segment) (init : Nat) :
    init ≤ l.foldl (fun m s => max m s.id) init := by
  induction l generalizing init with
  | nil => simp
  | cons x xs ih =>
    simp only [List.foldl_cons]
    exact le_trans (Nat.le_max_left _ _) (ih (max init x.id))

theorem foldmax_mem {l : List Segment} {s : Segment} (init : Nat) (h : s ∈ l) :
    s.id ≤ l.foldl (fun m s => max m s.id) init := by
  induction l generalizing init with
  | nil => simp at h
  | cons x xs ih =>
    simp only [List.foldl_cons]
    rcases List.mem_cons.mp h with rfl | h
    · exact le_trans (Nat.le_max_right _ _) (foldmax_init_le xs _)
    · exact ih _ h

theorem filter_len_mono {α : Type _} {l : List α} {p r : α → Bool}
    (h : ∀ x ∈ l, p x = true → r x = true) :
    (l.filter p).length ≤ (l.filter r).length := by
  induction l with
  | nil => simp
  | cons x xs ih =>
    have ih' := ih (fun y hy => h y (List.mem_cons_of_mem _ hy))
    by_cases hp : p x = true
    · rw [List.filter_cons, if_pos hp, List.filter_cons,
        if_pos (h x (List.mem_cons_self _ _) hp)]
      simpa using ih'
    · rw [List.filter_cons, if_neg hp, List.filter_cons]
      by_cases hr : r x = true
      · rw [if_pos hr]; simp; omega
      · rw [if_neg hr]; exact ih'

theorem filter_len_strict {α : Type _} {l : List α} {p r : α → Bool} {s : α}
    (hmem : s ∈ l) (hp : p s = false) (hr : r s = true)
    (himp : ∀ x ∈ l, p x = true → r x = true) :
    (l.filter p).length < (l.filter r).length := by
  induction l with
  | nil => simp at hmem
  | cons x xs ih =>
    have himp' : ∀ y ∈ xs, p y = true → r y = true :=
      fun y hy => himp y (List.mem_cons_of_mem _ hy)
    rcases List.mem_cons.mp hmem with rfl | hmem
    · rw [List.filter_cons, if_neg (by simp [hp]), List.filter_cons, if_pos hr]
      have := filter_len_mono himp'
      simp only [List.length_cons]
      omega
    · by_cases hpx : p x = true
      · rw [List.filter_cons, if_pos hpx, List.filter_cons,
          if_pos (himp x (List.mem_cons_self _ _) hpx)]
        simp only [List.length_cons]
        have := ih hmem himp'
        omega
      · rw [List.filter_cons, if_neg hpx, List.filter_cons]
        have := ih hmem himp'
        by_cases hrx : r x = true
        · rw [if_pos hrx]; simp only [List.length_cons]; omega
        · rw [if_neg hrx]; exact this

/-! ### Queue well-formedness and the pending-block abstraction -/

/-- Well-formed open queue: cursor and tail present, tail is the last list
element, ids strictly sorted, every record well formed, every segment capped
at the queue's segment size, and the cursor's segment exists with its read
position in sync with the cursor offset, on a record boundary. -/
def Queue.wf (q : Queue) : Bool :=
  match q.cursor, q.tailId with
  | some c, some t =>
    (match q.segments.getLast? with
     | some last => t == last.id
     | none => false) &&
    sortedIds q.segments &&
    q.segments.all (fun s => s.recs.all Rec.isOk && (s.maxSize == q.maxSegmentSize)) &&
    (match findSeg q c.segId with
     | some s => (s.readPos == c.offset) && isAligned s.recs c.offset
     | none => false)
  | _, _ => false

/-- The contribution of one segment to the not-yet-consumed blocks, relative
to a cursor. -/
def segPending (c : Cursor) (s : Segment) : List Block :=
  if s.id < c.segId then []
  else if s.id = c.segId then okBlocks (recsAfter s.recs c.offset)
  else okBlocks s.recs

/-- The blocks appended but not yet consumed by the cursor, in delivery
order. -/
def Queue.pending (q : Queue) : List Block :=
  match q.cursor with
  | none => []
  | some c => (q.segments.map (segPending c)).flatten

theorem wf_destruct {q : Queue} (h : q.wf = true) :
    ∃ c t last s₀,
      q.cursor = some c ∧ q.tailId = some t ∧
      q.segments.getLast? = some last ∧ t = last.id ∧
      sortedIds q.segments = true ∧
      (∀ s ∈ q.segments, (∀ r ∈ s.recs, r.isOk = true) ∧ s.maxSize = q.maxSegmentSize) ∧
      findSeg q c.segId = some s₀ ∧ s₀.readPos = c.offset ∧
      isAligned s₀.recs c.offset = true := by
  unfold Queue.wf at h
  cases hc : q.cursor with
  | none => rw [hc] at h; simp at h
  | some c =>
    cases ht : q.tailId with
    | none => rw [hc, ht] at h; simp at h
    | some t =>
      rw [hc, ht] at h
      simp only [Bool.and_eq_true] at h
      obtain ⟨⟨⟨h1, h2⟩, h3⟩, h4⟩ := h
      cases hl : q.segments.getLast? with
      | none => rw [hl] at h1; simp at h1
      | some last =>
        rw [hl] at h1
        simp only [beq_iff_eq] at h1
        cases hf : findSeg q c.segId with
        | none => rw [hf] at h4; simp at h4
        | some s₀ =>
          rw [hf] at h4
          simp only [Bool.and_eq_true, beq_iff_eq] at h4
          refine ⟨c, t, last, s₀, rfl, rfl, rfl, h1, h2, ?_, hf, h4.1, h4.2⟩
          intro s hs
          rw [List.all_eq_true] at h3
          have := h3 s hs
          simp only [Bool.and_eq_true, beq_iff_eq, List.all_eq_true] at this
          exact this

theorem wf_intro {q : Queue} {c : Cursor} {t : Nat} {last s₀ : Segment}
    (hc : q.cursor = some c) (ht : q.tailId = some t)
    (hl : q.segments.getLast? = some last) (hid : t = last.id)
    (hs : sortedIds q.segments = true)
    (hall : ∀ s ∈ q.segments, (∀ r ∈ s.recs, r.isOk = true) ∧ s.maxSize = q.maxSegmentSize)
    (hf : findSeg q c.segId = some s₀) (hr : s₀.readPos = c.offset)
    (ha : isAligned s₀.recs c.offset = true) : q.wf = true := by
  unfold Queue.wf
  rw [hc, ht]
  simp only [Bool.and_eq_true]
  refine ⟨⟨⟨?_, hs⟩, ?_⟩, ?_⟩
  · rw [hl]; simp [hid]
  · rw [List.all_eq_true]
    intro s hsm
    have := hall s hsm
    simp only [Bool.and_eq_true, beq_iff_eq, List.all_eq_true]
    exact this
  · rw [hf]
    simp only [Bool.and_eq_true, beq_iff_eq]
    exact ⟨hr, ha⟩

theorem find?_upd (l : List Segment) (i j : Nat) (f : Segment → Segment)
    (hf : ∀ s, s.id = i → (f s).id = s.id) :
    (l.map (fun s => if s.id == i then f s else s)).find? (fun s => s.id == j)
      = (l.find? (fun s => s.id == j)).map (fun s => if s.id == i then f s else s) := by
  rw [List.find?_map]
  have hp : ((fun s : Segment => s.id == j) ∘ fun s => if s.id == i then f s else s)
      = (fun s : Segment => s.id == j) := by
    funext s
    by_cases h : (s.id == i) = true
    · simp only [Function.comp, if_pos h]
      rw [hf s (by simpa using h)]
    · simp [Function.comp, h]
  rw [hp]

/-- The map of an id-targeted update over a list whose target is the final
element touches only that element. -/
theorem map_upd_concat {ys : List Segment} {z : Segment} {f : Segment → Segment}
    (hlt : ∀ s ∈ ys, s.id < z.id) :
    (ys ++ [z]).map (fun s => if s.id == z.id then f s else s) = ys ++ [f z] := by
  rw [List.map_append]
  congr 1
  · rw [show ys = ys.map id by simp]
    rw [List.map_map]
    refine List.map_congr_left ?_
    intro s hs
    simp only [Function.comp, id]
    rw [if_neg (by simp [Nat.ne_of_lt (hlt s (by simpa using hs))])]
  · simp

theorem sorted_lt_concat {ys : List Segment} {z : Segment}
    (h : sortedIds (ys ++ [z]) = true) : ∀ s ∈ ys, s.id < z.id := by
  induction ys with
  | nil => intro s hs; simp at hs
  | cons x xs ih =>
    intro s hs
    rcases List.mem_cons.mp hs with rfl | hs
    · refine sorted_head_lt (by simpa using h) z ?_
      exact List.mem_append_right xs (List.mem_cons_self _ _)
    · exact ih (sorted_tail (by simpa using h)) s hs

theorem sumSizes_append (a b : List Segment) :
    sumSizes (a ++ b) = sumSizes a + sumSizes b := by
  induction a with
  | nil => simp [sumSizes]
  | cons x xs ih =>
    show x.DiskUsage + sumSizes (xs ++ b) = x.DiskUsage + sumSizes xs + sumSizes b
    rw [ih]; ring

/-- Decomposition of the pending blocks: the cursor segment's suffix followed
by the full contents of every segment beyond the cursor. -/
theorem pending_decomp {l : List Segment} (c : Cursor) {s₀ : Segment}
    (hs : sortedIds l = true)
    (hfind : l.find? (fun s => s.id == c.segId) = some s₀) :
    (l.map (segPending c)).flatten
      = okBlocks (recsAfter s₀.recs c.offset)
        ++ ((l.filter (fun s => decide (c.segId < s.id))).map (fun s => okBlocks s.recs)).flatten := by
  induction l with
  | nil => simp at hfind
  | cons x xs ih =>
    by_cases hx : (x.id == c.segId) = true
    · rw [@List.find?_cons_of_pos _ (fun s => s.id == c.segId) x xs hx] at hfind
      cases hfind
      have hxid : s₀.id = c.segId := by simpa using hx
      have hlt : ∀ s ∈ xs, c.segId < s.id := by
        intro s hsm
        have := sorted_head_lt hs s hsm
        omega
      have htail : (xs.map (segPending c)) = xs.map (fun s => okBlocks s.recs) := by
        refine List.map_congr_left ?_
        intro s hsm
        have h1 := hlt s hsm
        simp only [segPending]
        rw [if_neg (by omega), if_neg (by omega)]
      have hfilter : xs.filter (fun s => decide (c.segId < s.id)) = xs :=
        List.filter_eq_self.mpr (fun s hsm => by simpa using hlt s hsm)
      simp only [List.map_cons, List.flatten_cons, List.filter_cons]
      rw [if_neg (by simp [hxid]), hfilter, htail]
      congr 1
      simp only [segPending]
      rw [if_neg (by omega), if_pos hxid]
    · rw [@List.find?_cons_of_neg _ (fun s => s.id == c.segId) x xs hx] at hfind
      have hs₀ : s₀ ∈ xs := List.mem_of_find?_eq_some hfind
      have hcid : s₀.id = c.segId := by simpa using List.find?_some hfind
      have hxlt : x.id < c.segId := by
        have := sorted_head_lt hs s₀ hs₀
        omega
      simp only [List.map_cons, List.flatten_cons, List.filter_cons]
      rw [if_neg (by simp; omega)]
      have hx0 : segPending c x = [] := by
        simp only [segPending]
        rw [if_pos (by exact hxlt)]
      rw [hx0]
      simpa using ih (sorted_tail hs) hfind

/-- In a sorted list, the segments beyond the cursor are the first one with a
greater id followed by the segments beyond that one. -/
theorem filter_gt_of_find {l : List Segment} {cid : Nat} {s' : Segment}
    (hs : sortedIds l = true)
    (hfind : l.find? (fun s => decide (cid < s.id)) = some s') :
    l.filter (fun s => decide (cid < s.id))
      = s' :: l.filter (fun s => decide (s'.id < s.id)) := by
  induction l with
  | nil => simp at hfind
  | cons x xs ih =>
    by_cases hx : (decide (cid < x.id)) = true
    · rw [@List.find?_cons_of_pos _ (fun s => decide (cid < s.id)) x xs hx] at hfind
      cases hfind
      have h1 : xs.filter (fun s => decide (cid < s.id)) = xs :=
        List.filter_eq_self.mpr (fun s hsm => by
          have := sorted_head_lt hs s hsm
          simp only [decide_eq_true_eq] at hx ⊢
          omega)
      have h2 : xs.filter (fun s => decide (s'.id < s.id)) = xs :=
        List.filter_eq_self.mpr (fun s hsm => by
          have := sorted_head_lt hs s hsm
          simpa using this)
      rw [List.filter_cons, if_pos hx, h1, List.filter_cons,
        if_neg (by simp), h2]
    · rw [@List.find?_cons_of_neg _ (fun s => decide (cid < s.id)) x xs hx] at hfind
      have hs' : s' ∈ xs := List.mem_of_find?_eq_some hfind
      have hlt : x.id < s'.id := sorted_head_lt hs s' hs'
      rw [List.filter_cons, if_neg hx, List.filter_cons,
        if_neg (by simp only [decide_eq_true_eq]; omega)]
      exact ih (sorted_tail hs) hfind

theorem filter_id_map (l : List Segment) (g : Segment → Segment)
    (hid : ∀ s, (g s).id = s.id) (k : Nat) :
    (l.map g).filter (fun s => decide (k < s.id))
      = (l.filter (fun s => decide (k < s.id))).map g := by
  induction l with
  | nil => simp
  | cons x xs ih =>
    simp only [List.map_cons, List.filter_cons, hid]
    by_cases hp : decide (k < x.id) = true
    · rw [if_pos hp, if_pos hp, List.map_cons, ih]
    · rw [if_neg hp, if_neg hp, ih]

theorem find?_none_filter {l : List Segment} {p : Segment → Bool}
    (h : l.find? p = none) : l.filter p = [] := by
  rw [List.filter_eq_nil_iff]
  exact fun a ha => (List.find?_eq_none.mp h) a ha

theorem okBlocks_all_mem {rs : List Rec} {r : Rec}
    (hall : ∀ x ∈ rs, x.isOk = true) (hmem : r ∈ rs) : ∃ b, r = .ok b := by
  have := hall r hmem
  cases r with
  | ok b => exact ⟨b, rfl⟩
  | corrupt len => simp [Rec.isOk] at this

theorem updSeg_segments (q : Queue) (i : Nat) (f : Segment → Segment) :
    (updSeg q i f).segments = q.segments.map (fun s => if s.id == i then f s else s) := rfl

theorem updSeg_cursor (q : Queue) (i : Nat) (f : Segment → Segment) :
    (updSeg q i f).cursor = q.cursor := rfl

theorem updSeg_tailId (q : Queue) (i : Nat) (f : Segment → Segment) :
    (updSeg q i f).tailId = q.tailId := rfl

/-- An id-, record- and cap-preserving in-place update of one segment keeps
the structural well-formedness data of the segment list. -/
theorem map_upd_scaffold {l : List Segment} {last : Segment} {g : Segment → Segment} {i : Nat}
    (hid : ∀ s, (g s).id = s.id) (hrecs : ∀ s, (g s).recs = s.recs)
    (hms : ∀ s, (g s).maxSize = s.maxSize)
    (hlast : l.getLast? = some last) (hsorted : sortedIds l = true)
    {mss : Int}
    (hall : ∀ s ∈ l, (∀ r ∈ s.recs, r.isOk = true) ∧ s.maxSize = mss) :
    (l.map (fun s => if s.id == i then g s else s)).getLast?
        = some (if last.id == i then g last else last) ∧
    (if last.id == i then g last else last).id = last.id ∧
    sortedIds (l.map (fun s => if s.id == i then g s else s)) = true ∧
    (∀ s ∈ l.map (fun s => if s.id == i then g s else s),
      (∀ r ∈ s.recs, r.isOk = true) ∧ s.maxSize = mss) := by
  have hid' : ∀ s : Segment, ((fun s => if s.id == i then g s else s) s).id = s.id := by
    intro s
    by_cases h : (s.id == i) = true <;> simp [h, hid]
  refine ⟨?_, ?_, ?_, ?_⟩
  · rw [List.getLast?_map, hlast]; rfl
  · exact hid' last
  · rw [sorted_map hid']; exact hsorted
  · intro s hs
    obtain ⟨x, hx, rfl⟩ := List.mem_map.mp hs
    have := hall x hx
    by_cases h : (x.id == i) = true
    · simp only [if_pos h, hrecs, hms]
      exact this
    · simp only [if_neg h]
      exact this

/-- A record-preserving in-place update does not change the blocks stored in
the segments beyond any id threshold. -/
theorem tailpart_upd (l : List Segment) (g : Segment → Segment) (i k : Nat)
    (hid : ∀ s, (g s).id = s.id) (hrecs : ∀ s, (g s).recs = s.recs) :
    ((l.map (fun s => if s.id == i then g s else s)).filter
        (fun s => decide (k < s.id))).map (fun s => okBlocks s.recs)
      = (l.filter (fun s => decide (k < s.id))).map (fun s => okBlocks s.recs) := by
  have hid' : ∀ s : Segment, ((fun s => if s.id == i then g s else s) s).id = s.id := by
    intro s
    by_cases h : (s.id == i) = true <;> simp [h, hid]
  rw [filter_id_map l (fun s => if s.id == i then g s else s) hid' k, List.map_map]
  refine List.map_congr_left ?_
  intro s hs
  by_cases h : (s.id == i) = true <;> simp [Function.comp, h, hrecs]

/-- Core lemma on `queue.Next`'s loop over a well-formed queue: with enough
fuel it returns the head of the pending blocks and advances the cursor past
it (leaving the cursor rewindable by exactly that block), or returns `ErrEOQ`
with `emptyInflight` set when nothing is pending. -/
theorem nextLoop_spec (now : Int) (bIn : Block) :
    ∀ (fuel : Nat) (q : Queue) (c : Cursor), q.cursor = some c → q.wf = true →
    (q.segments.filter (fun s => decide (c.segId < s.id))).length < fuel →
    ((∀ b rest, q.pending = b :: rest →
      ∃ q' c', nextLoop now bIn fuel q = (.ok b, q') ∧ q'.wf = true ∧
        q'.cursor = some c' ∧ q'.pending = rest ∧ q'.emptyInflight = false ∧
        q'.tailId = q.tailId ∧ q'.maxSize = q.maxSize ∧
        q'.maxSegmentSize = q.maxSegmentSize ∧ q'.maxAge = q.maxAge ∧
        q'.appendN = q.appendN ∧ q'.deliverN = q.deliverN ∧
        q'.inflights = q.inflights ∧ b.size ≤ c'.offset ∧
        (∃ s', findSeg q' c'.segId = some s' ∧
          isAligned s'.recs (c'.offset - b.size) = true ∧
          recsAfter s'.recs (c'.offset - b.size) = .ok b :: recsAfter s'.recs c'.offset)) ∧
     (q.pending = [] →
      ∃ q', nextLoop now bIn fuel q = (.error .EOQ, q') ∧ q'.wf = true ∧
        q'.pending = [] ∧ q'.emptyInflight = true ∧
        q'.tailId = q.tailId ∧ q'.maxSize = q.maxSize ∧
        q'.maxSegmentSize = q.maxSegmentSize ∧ q'.maxAge = q.maxAge ∧
        q'.appendN = q.appendN ∧ q'.deliverN = q.deliverN ∧
        q'.inflights = q.inflights)) := by
  intro fuel
  induction fuel with
  | zero =>
    intro q c hc hwf hbound
    exact absurd hbound (Nat.not_lt_zero _)
  | succ fuel ih =>
    intro q c hc hwf hbound
    obtain ⟨c₀, t, last, s₀, hc₀, ht, hlast, htid, hsorted, hall, hfind, hrp, halign⟩ :=
      wf_destruct hwf
    rw [hc] at hc₀
    obtain rfl : c = c₀ := Option.some.inj hc₀
    have hfindL : q.segments.find? (fun s => s.id == c.segId) = some s₀ := hfind
    have hs₀mem : s₀ ∈ q.segments := List.mem_of_find?_eq_some hfindL
    have hs₀id : s₀.id = c.segId := by simpa using List.find?_some hfindL
    have hallok : ∀ r ∈ s₀.recs, r.isOk = true := (hall s₀ hs₀mem).1
    have spos : ∀ x ∈ s₀.recs, 0 < x.size := fun x hx => Rec.size_pos_of_isOk (hallok x hx)
    have hoff0 : 0 ≤ c.offset := isAligned_nonneg halign
    have hpend : q.pending
        = okBlocks (recsAfter s₀.recs c.offset)
          ++ ((q.segments.filter (fun s => decide (c.segId < s.id))).map
              (fun s => okBlocks s.recs)).flatten := by
      have h0 : q.pending = (q.segments.map (segPending c)).flatten := by
        simp [Queue.pending, hc]
      rw [h0]
      exact pending_decomp c hsorted hfindL
    cases hAfter : recsAfter s₀.recs c.offset with
    | cons r tl' =>
      obtain ⟨b₀, rfl⟩ := okBlocks_all_mem hallok
        (mem_of_mem_recsAfter (by rw [hAfter]; exact List.mem_cons_self _ _))
      have hbpos : 0 < b₀.size := b₀.size_pos
      have hnneg : ¬(c.offset + b₀.size < 0) := by omega
      have hread : recsReadAt s₀.recs s₀.readPos = .ok b₀ := by
        rw [hrp, aligned_readAt halign, hAfter]
      obtain ⟨hA1, hA2⟩ := aligned_after_cons spos halign hAfter
      have hA1x : isAligned s₀.recs (c.offset + b₀.size) = true := by
        simpa [Rec.size] using hA1
      have hA2x : recsAfter s₀.recs (c.offset + b₀.size) = tl' := by
        simpa [Rec.size] using hA2
      rw [hAfter] at hpend
      simp only [okBlocks, List.cons_append] at hpend
      have scaffold := @map_upd_scaffold q.segments last
        (fun s => { s with readPos := s.readPos + b₀.size }) c.segId
        (fun s => rfl) (fun s => rfl) (fun s => rfl) hlast hsorted q.maxSegmentSize hall
      have hfind2 : (q.segments.map (fun s =>
            if s.id == c.segId then { s with readPos := s.readPos + b₀.size } else s)).find?
            (fun s => s.id == c.segId)
          = some { s₀ with readPos := s₀.readPos + b₀.size } := by
        rw [find?_upd q.segments c.segId c.segId
          (fun s => { s with readPos := s.readPos + b₀.size }) (fun s h => rfl), hfindL]
        simp [hs₀id]
      constructor
      · intro b rest hbr
        rw [hpend] at hbr
        obtain ⟨rfl, rfl⟩ := List.cons.inj hbr
        refine ⟨{ updSeg q c.segId (fun s => { s with readPos := s.readPos + b₀.size }) with
                  emptyInflight := false,
                  cursor := some ⟨c.segId, c.offset + b₀.size⟩ },
                ⟨c.segId, c.offset + b₀.size⟩, ?_, ?_, rfl, ?_, rfl,
                rfl, rfl, rfl, rfl, rfl, rfl, rfl,
                (by show b₀.size ≤ c.offset + b₀.size; omega), ?_⟩
        · simp only [nextLoop, hc, hfind, hread, if_neg hnneg]
        · refine wf_intro rfl ht scaffold.1 ?_ scaffold.2.2.1 scaffold.2.2.2 hfind2 ?_ ?_
          · rw [htid, scaffold.2.1]
          · show s₀.readPos + b₀.size = c.offset + b₀.size
            rw [hrp]
          · show isAligned s₀.recs (c.offset + b₀.size) = true
            exact hA1x
        · show ((q.segments.map (fun s =>
              if s.id == c.segId then { s with readPos := s.readPos + b₀.size } else s)).map
              (segPending ⟨c.segId, c.offset + b₀.size⟩)).flatten = _
          rw [pending_decomp (⟨c.segId, c.offset + b₀.size⟩ : Cursor) scaffold.2.2.1 hfind2]
          show okBlocks (recsAfter s₀.recs (c.offset + b₀.size)) ++ _ = _
          rw [hA2x, tailpart_upd q.segments
            (fun s => { s with readPos := s.readPos + b₀.size }) c.segId c.segId
            (fun s => rfl) (fun s => rfl)]
        · refine ⟨{ s₀ with readPos := s₀.readPos + b₀.size }, hfind2, ?_, ?_⟩
          · show isAligned s₀.recs (c.offset + b₀.size - b₀.size) = true
            have he : c.offset + b₀.size - b₀.size = c.offset := by ring
            rw [he]; exact halign
          · show recsAfter s₀.recs (c.offset + b₀.size - b₀.size)
                = .ok b₀ :: recsAfter s₀.recs (c.offset + b₀.size)
            have he : c.offset + b₀.size - b₀.size = c.offset := by ring
            rw [he, hAfter, hA2x]
      · intro hnil
        rw [hpend] at hnil
        cases hnil
    | nil =>
      have hread : recsReadAt s₀.recs s₀.readPos = .error .EOF := by
        rw [hrp, aligned_readAt halign, hAfter]
      rw [hAfter] at hpend
      simp only [okBlocks, List.nil_append] at hpend
      cases hadv : q.segments.find? (fun s => decide (c.segId < s.id)) with
      | none =>
        have hfilnil : q.segments.filter (fun s => decide (c.segId < s.id)) = [] :=
          find?_none_filter hadv
        have hpend0 : q.pending = [] := by rw [hpend, hfilnil]; simp
        constructor
        · intro b rest hbr
          rw [hpend0] at hbr
          cases hbr
        · intro _
          refine ⟨{ q with emptyInflight := true }, ?_, ?_, ?_, rfl,
                  rfl, rfl, rfl, rfl, rfl, rfl, rfl⟩
          · simp only [nextLoop, hc, hfind, hread, Queue.advanceSegment, hadv]
          · exact wf_intro hc ht hlast htid hsorted hall hfind hrp halign
          · exact hpend0
      | some s' =>
        have hs'mem : s' ∈ q.segments := List.mem_of_find?_eq_some hadv
        have hclt : c.segId < s'.id := by simpa using List.find?_some hadv
        have hstep : nextLoop now bIn (fuel + 1) q
            = nextLoop now bIn fuel
                { updSeg q s'.id (fun x => x.Seek 0) with cursor := some ⟨s'.id, 0⟩ } := by
          simp only [nextLoop, hc, hfind, hread, Queue.advanceSegment, hadv]
        have hfind3 : (q.segments.map (fun s => if s.id == s'.id then s.Seek 0 else s)).find?
            (fun s => s.id == s'.id) = some (s'.Seek 0) := by
          rw [find?_upd q.segments s'.id s'.id (fun x => x.Seek 0) (fun s h => rfl),
            findSeg_sorted_mem hsorted hs'mem]
          simp
        have scaffold3 := @map_upd_scaffold q.segments last (fun x => x.Seek 0) s'.id
          (fun s => rfl) (fun s => rfl) (fun s => rfl) hlast hsorted q.maxSegmentSize hall
        have wf3 : ({ updSeg q s'.id (fun x => x.Seek 0) with
            cursor := some ⟨s'.id, 0⟩ } : Queue).wf = true := by
          refine wf_intro rfl ht scaffold3.1 ?_ scaffold3.2.2.1 scaffold3.2.2.2 hfind3 rfl
            (isAligned_zero _)
          rw [htid, scaffold3.2.1]
        have pend3 : ({ updSeg q s'.id (fun x => x.Seek 0) with
            cursor := some ⟨s'.id, 0⟩ } : Queue).pending = q.pending := by
          show ((q.segments.map (fun s => if s.id == s'.id then s.Seek 0 else s)).map
              (segPending ⟨s'.id, 0⟩)).flatten = _
          rw [pending_decomp (⟨s'.id, 0⟩ : Cursor) scaffold3.2.2.1 hfind3]
          show okBlocks (recsAfter s'.recs 0) ++ _ = _
          rw [recsAfter_zero, tailpart_upd q.segments (fun x => x.Seek 0) s'.id s'.id
            (fun s => rfl) (fun s => rfl), hpend,
            filter_gt_of_find hsorted hadv]
          simp
        have bound3 : (({ updSeg q s'.id (fun x => x.Seek 0) with
            cursor := some ⟨s'.id, 0⟩ } : Queue).segments.filter
              (fun s => decide (s'.id < s.id))).length < fuel := by
          have e : ({ updSeg q s'.id (fun x => x.Seek 0) with
              cursor := some ⟨s'.id, 0⟩ } : Queue).segments.filter
                (fun s => decide (s'.id < s.id))
              = (q.segments.filter (fun s => decide (s'.id < s.id))).map
                  (fun s => if s.id == s'.id then s.Seek 0 else s) := by
            refine filter_id_map q.segments
              (fun s => if s.id == s'.id then s.Seek 0 else s) ?_ s'.id
            intro s
            by_cases h : (s.id == s'.id) = true <;> simp [h, Segment.Seek]
          rw [e, List.length_map]
          have hstrict := @filter_len_strict Segment q.segments
            (fun s => decide (s'.id < s.id)) (fun s => decide (c.segId < s.id)) s'
            hs'mem (by simp) (by simpa using hclt)
            (fun x hx hpx => by
              simp only [decide_eq_true_eq] at hpx ⊢
              omega)
          omega
        obtain ⟨IH1, IH2⟩ := ih { updSeg q s'.id (fun x => x.Seek 0) with
            cursor := some ⟨s'.id, 0⟩ } ⟨s'.id, 0⟩ rfl wf3 bound3
        constructor
        · intro b rest hbr
          obtain ⟨q', c', heq, hwf', hc', hpend', hflag', ht', hms', hmss', hma', han',
            hdn', hin', hsz', hrb'⟩ := IH1 b rest (by rw [pend3]; exact hbr)
          exact ⟨q', c', by rw [hstep]; exact heq, hwf', hc', hpend', hflag',
            ht', hms', hmss', hma', han', hdn', hin', hsz', hrb'⟩
        · intro hnil
          obtain ⟨q', heq, hwf', hpend', hflag', ht', hms', hmss', hma', han',
            hdn', hin'⟩ := IH2 (by rw [pend3]; exact hnil)
          exact ⟨q', by rw [hstep]; exact heq, hwf', hpend', hflag',
            ht', hms', hmss', hma', han', hdn', hin'⟩

/-- `queue.Rollback` after a successful read restores the rewindable block to
the front of the pending list. -/
theorem rollback_spec {q : Queue} {c : Cursor} {s₀ : Segment} {b : Block}
    (hwf : q.wf = true) (hc : q.cursor = some c)
    (hfind : findSeg q c.segId = some s₀)
    (hsz : b.size ≤ c.offset)
    (ha : isAligned s₀.recs (c.offset - b.size) = true)
    (he : recsAfter s₀.recs (c.offset - b.size) = .ok b :: recsAfter s₀.recs c.offset) :
    q.Rollback b = (none,
      { updSeg q c.segId (fun s => s.Seek (c.offset - b.size)) with
        cursor := some ⟨c.segId, c.offset - b.size⟩, emptyInflight := false }) ∧
    ((q.Rollback b).2.wf = true ∧ (q.Rollback b).2.pending = b :: q.pending ∧
      (q.Rollback b).2.emptyInflight = false ∧
      (q.Rollback b).2.cursor = some ⟨c.segId, c.offset - b.size⟩ ∧
      (q.Rollback b).2.tailId = q.tailId ∧ (q.Rollback b).2.segments.length = q.segments.length) := by
  obtain ⟨c₀, t, last, s₀', hc₀, ht, hlast, htid, hsorted, hall, hfind', hrp, halign⟩ :=
    wf_destruct hwf
  rw [hc] at hc₀
  obtain rfl : c = c₀ := Option.some.inj hc₀
  rw [hfind] at hfind'
  obtain rfl : s₀ = s₀' := Option.some.inj hfind'
  have hfindL : q.segments.find? (fun s => s.id == c.segId) = some s₀ := hfind
  have hs₀id : s₀.id = c.segId := by simpa using List.find?_some hfindL
  have hoff0 : 0 ≤ c.offset := isAligned_nonneg halign
  have hlt : ¬(c.offset - b.size < 0) := by omega
  have heq : q.Rollback b = (none,
      { updSeg q c.segId (fun s => s.Seek (c.offset - b.size)) with
        cursor := some ⟨c.segId, c.offset - b.size⟩, emptyInflight := false }) := by
    simp only [Queue.Rollback, hc, if_neg hlt]
  refine ⟨heq, ?_⟩
  rw [heq]
  have scaffold := @map_upd_scaffold q.segments last
    (fun s => s.Seek (c.offset - b.size)) c.segId
    (fun s => rfl) (fun s => rfl) (fun s => rfl) hlast hsorted q.maxSegmentSize hall
  have hfind2 : (q.segments.map (fun s =>
        if s.id == c.segId then s.Seek (c.offset - b.size) else s)).find?
        (fun s => s.id == c.segId)
      = some (s₀.Seek (c.offset - b.size)) := by
    rw [find?_upd q.segments c.segId c.segId
      (fun s => s.Seek (c.offset - b.size)) (fun s h => rfl), hfindL]
    simp [hs₀id]
  refine ⟨?_, ?_, rfl, rfl, rfl, by simp [updSeg]⟩
  · refine wf_intro rfl ht scaffold.1 ?_ scaffold.2.2.1 scaffold.2.2.2 hfind2 rfl ?_
    · rw [htid, scaffold.2.1]
    · exact ha
  · show ((q.segments.map (fun s =>
        if s.id == c.segId then s.Seek (c.offset - b.size) else s)).map
        (segPending ⟨c.segId, c.offset - b.size⟩)).flatten = _
    rw [pending_decomp (⟨c.segId, c.offset - b.size⟩ : Cursor) scaffold.2.2.1 hfind2]
    show okBlocks (recsAfter s₀.recs (c.offset - b.size)) ++ _ = _
    rw [he, tailpart_upd q.segments (fun s => s.Seek (c.offset - b.size)) c.segId c.segId
      (fun s => rfl) (fun s => rfl)]
    have hq : q.pending = (q.segments.map (segPending c)).flatten := by
      simp [Queue.pending, hc]
    rw [hq, pending_decomp c hsorted hfindL]
    simp [okBlocks]

theorem sorted_pre {ys zs : List Segment}
    (h : sortedIds (ys ++ zs) = true) : sortedIds ys = true := by
  induction ys with
  | nil => rfl
  | cons x xs ih =>
    cases xs with
    | nil => rfl
    | cons y ts =>
      simp only [List.cons_append, sortedIds, Bool.and_eq_true, decide_eq_true_eq] at h ⊢
      exact ⟨h.1, by simpa using ih (by simpa using h.2)⟩

/-- `queue.Append` when the tail still has room: the block lands at the end of
the tail segment, the counters are bumped, `emptyInflight` cleared. -/
theorem Append_direct {q : Queue} {t : Nat} {tl : Segment} (now : Int) (b : Block)
    (ht : q.tailId = some t) (hfind : findSeg q t = some tl)
    (hadm : ¬(0 < q.maxSize ∧ q.maxSize < q.diskUsage + b.size))
    (hroom : ¬(tl.maxSize < tl.DiskUsage + b.size)) :
    q.Append now b = (none,
      { updSeg q t (fun _ => { tl with recs := tl.recs ++ [.ok b], lastModified := now }) with
        emptyInflight := false, appendN := q.appendN + 1, inflights := q.inflights + 1 }) := by
  simp only [Queue.Append, ht, if_neg hadm, hfind, Segment.Append, if_neg hroom]

/-- `queue.Append` when the tail is full and the block fits in a fresh
segment: exactly one new segment is created, installed as tail, and the
retried write succeeds. -/
theorem Append_rollover {q : Queue} {t : Nat} {tl : Segment} (now : Int) (b : Block)
    (ht : q.tailId = some t) (hfind : findSeg q t = some tl)
    (hadm : ¬(0 < q.maxSize ∧ q.maxSize < q.diskUsage + b.size))
    (hfull : tl.maxSize < tl.DiskUsage + b.size)
    (hfit : b.size ≤ q.maxSegmentSize) :
    q.Append now b = (none,
      { q with
        segments := q.segments ++ [⟨q.nextSegmentID, [.ok b], q.maxSegmentSize, 0, now⟩],
        tailId := some q.nextSegmentID,
        emptyInflight := false,
        appendN := q.appendN + 1,
        inflights := q.inflights + 1 }) := by
  have hne : ∀ s ∈ q.segments, (s.id == q.nextSegmentID) = false := by
    intro s hs
    have h1 := foldmax_mem 0 hs
    simp only [Queue.nextSegmentID] at h1 ⊢
    simp only [beq_eq_false_iff_ne, ne_eq]
    omega
  have hnofit : ¬((q.maxSegmentSize : Int)
      < Segment.DiskUsage ⟨q.nextSegmentID, [], q.maxSegmentSize, 0, now⟩ + b.size) := by
    simp only [Segment.DiskUsage, recsSize]
    omega
  simp only [Queue.Append, ht, if_neg hadm, hfind, Segment.Append, if_pos hfull,
    Queue.addSegment, if_neg hnofit, updSeg]
  simp only [Prod.mk.injEq, true_and]
  rw [List.map_append]
  have hmapid : q.segments.map (fun s =>
      if s.id == q.nextSegmentID
      then { Segment.mk q.nextSegmentID [] q.maxSegmentSize 0 now with
             recs := ([] : List Rec) ++ [.ok b], lastModified := now }
      else s) = q.segments := by
    conv_rhs => rw [show q.segments = q.segments.map id from (List.map_id _).symm]
    refine List.map_congr_left ?_
    intro s hs
    rw [if_neg (by simp [hne s hs])]
    rfl
  rw [hmapid]
  simp

/-- `wf_intro` with the segment list given through an equation. -/
theorem wf_intro2 {Q : Queue} {l2 : List Segment} {c : Cursor} {t : Nat} {z s₁ : Segment}
    (hseg : Q.segments = l2) (hc : Q.cursor = some c) (ht : Q.tailId = some t)
    (hl : l2.getLast? = some z) (hid : t = z.id) (hs : sortedIds l2 = true)
    (hall : ∀ s ∈ l2, (∀ r ∈ s.recs, r.isOk = true) ∧ s.maxSize = Q.maxSegmentSize)
    (hf : l2.find? (fun s => s.id == c.segId) = some s₁)
    (hrp : s₁.readPos = c.offset) (ha : isAligned s₁.recs c.offset = true) :
    Q.wf = true := by
  refine wf_intro hc ht ?_ hid ?_ ?_ ?_ hrp ha
  · rw [hseg]; exact hl
  · rw [hseg]; exact hs
  · rw [hseg]; exact hall
  · show Q.segments.find? _ = _
    rw [hseg]; exact hf

/-- A successful `queue.Append` on a well-formed unbounded queue appends the
block to the pending sequence and preserves well-formedness. -/
theorem append_ok {q : Queue} (now : Int) (b : Block)
    (hwf : q.wf = true) (hms : q.maxSize ≤ 0) (hfit : b.size ≤ q.maxSegmentSize) :
    (q.Append now b).1 = none ∧ (q.Append now b).2.wf = true ∧
    (q.Append now b).2.pending = q.pending ++ [b] ∧
    (q.Append now b).2.maxSize = q.maxSize ∧
    (q.Append now b).2.maxSegmentSize = q.maxSegmentSize ∧
    (q.Append now b).2.cursor = q.cursor := by
  obtain ⟨c, t, last, s₀, hc, ht, hlast, htid, hsorted, hall, hfind, hrp, halign⟩ :=
    wf_destruct hwf
  subst htid
  have hfindL : q.segments.find? (fun s => s.id == c.segId) = some s₀ := hfind
  have hs₀mem : s₀ ∈ q.segments := List.mem_of_find?_eq_some hfindL
  have hs₀id : s₀.id = c.segId := by simpa using List.find?_some hfindL
  have hadm : ¬(0 < q.maxSize ∧ q.maxSize < q.diskUsage + b.size) := by
    intro h
    omega
  have hlastmem : last ∈ q.segments := mem_of_getLast? hlast
  have hfT : findSeg q last.id = some last := findSeg_sorted_mem hsorted hlastmem
  have hcle : c.segId ≤ last.id := by
    have := sorted_le_last hsorted hlast s₀ hs₀mem
    omega
  by_cases hroom : last.maxSize < last.DiskUsage + b.size
  · -- tail full: rollover to a fresh segment
    have heq := Append_rollover now b ht hfT hadm hroom hfit
    rw [heq]
    have hnid : ∀ s ∈ q.segments, s.id < q.nextSegmentID := by
      intro s hs
      have := foldmax_mem 0 hs
      simp only [Queue.nextSegmentID]
      omega
    have hgt : c.segId < q.nextSegmentID := lt_of_le_of_lt hcle (hnid last hlastmem)
    refine ⟨rfl, ?_, ?_, rfl, rfl, rfl⟩
    · refine wf_intro2 rfl hc rfl (List.getLast?_concat _) rfl
        (sorted_append_one hsorted hnid) ?_ ?_ hrp halign
      · intro s hs
        rcases List.mem_append.mp hs with hs | hs
        · exact hall s hs
        · simp only [List.mem_singleton] at hs
          subst hs
          refine ⟨?_, rfl⟩
          intro r hr
          simp only [List.mem_singleton] at hr
          subst hr
          rfl
      · rw [List.find?_append, hfindL]
        rfl
    · simp only [Queue.pending, hc]
      have hsp : segPending c (⟨q.nextSegmentID, [.ok b], q.maxSegmentSize, 0, now⟩ :
          Segment) = [b] := by
        simp only [segPending]
        rw [if_neg (by show ¬(q.nextSegmentID < c.segId); omega),
          if_neg (by show ¬(q.nextSegmentID = c.segId); omega)]
        rfl
      rw [List.map_append]
      simp [hsp]
  · -- tail has room: in-place append at the tail
    have heq := Append_direct now b ht hfT hadm hroom
    rw [heq]
    obtain ⟨ys, hys⟩ := List.getLast?_eq_some_iff.mp hlast
    have hlt : ∀ s ∈ ys, s.id < last.id := sorted_lt_concat (by rw [← hys]; exact hsorted)
    have hokl := hall last hlastmem
    set tl2 : Segment := { last with recs := last.recs ++ [.ok b], lastModified := now } with htl2
    have htlid : tl2.id = last.id := rfl
    have htlrecs : tl2.recs = last.recs ++ [.ok b] := rfl
    have hsegs : (updSeg q last.id (fun _ => tl2)).segments = ys ++ [tl2] := by
      rw [updSeg_segments, hys]
      exact map_upd_concat hlt
    have hsorted2 : sortedIds (ys ++ [tl2]) = true := by
      refine sorted_append_one (sorted_pre (by rw [← hys]; exact hsorted)) ?_
      intro s hs
      rw [htlid]
      exact hlt s hs
    have hall2 : ∀ s ∈ ys ++ [tl2],
        (∀ r ∈ s.recs, r.isOk = true) ∧ s.maxSize = q.maxSegmentSize := by
      intro s hs
      rcases List.mem_append.mp hs with hs | hs
      · exact hall s (by rw [hys]; exact List.mem_append_left _ hs)
      · simp only [List.mem_singleton] at hs
        subst hs
        refine ⟨?_, hokl.2⟩
        intro r hr
        rw [htlrecs] at hr
        rcases List.mem_append.mp hr with hr | hr
        · exact hokl.1 r hr
        · simp only [List.mem_singleton] at hr
          subst hr
          rfl
    have hfind2 : (ys ++ [tl2]).find? (fun s => s.id == c.segId)
        = some (if c.segId = last.id then tl2 else s₀) := by
      by_cases hcl : c.segId = last.id
      · rw [if_pos hcl, List.find?_append]
        have hynone : ys.find? (fun s => s.id == c.segId) = none := by
          rw [List.find?_eq_none]
          intro x hx
          have := hlt x hx
          simp only [beq_iff_eq]
          omega
        rw [hynone, Option.none_or]
        exact List.find?_cons_of_pos _ (by rw [htlid]; simp [hcl])
      · rw [if_neg hcl]
        have hclt : c.segId < last.id := lt_of_le_of_ne hcle hcl
        have hyfind : ys.find? (fun s => s.id == c.segId) = some s₀ := by
          have h1 : (ys ++ [last]).find? (fun s => s.id == c.segId) = some s₀ := by
            rw [← hys]; exact hfindL
          rw [List.find?_append] at h1
          cases hy : ys.find? (fun s => s.id == c.segId) with
          | some z => rw [hy] at h1; simpa using h1
          | none =>
            rw [hy, Option.none_or] at h1
            have hmem := List.mem_of_find?_eq_some h1
            simp only [List.mem_singleton] at hmem
            subst hmem
            exact absurd hs₀id (by omega)
        rw [List.find?_append, hyfind]
        rfl
    refine ⟨rfl, ?_, ?_, rfl, rfl, rfl⟩
    · by_cases hcl : c.segId = last.id
      · have hs₀last : s₀ = last := by
          have h1 : q.segments.find? (fun s => s.id == c.segId) = some last := by
            rw [hcl]; exact hfT
          rw [hfindL] at h1
          exact Option.some.inj h1
        refine wf_intro2 hsegs hc ht (List.getLast?_concat _) htlid.symm hsorted2 hall2
          (by rw [hfind2, if_pos hcl]) ?_ ?_
        · show last.readPos = c.offset
          rw [← hs₀last]
          exact hrp
        · rw [htlrecs, ← hs₀last]
          exact isAligned_append _ halign
      · exact wf_intro2 hsegs hc ht (List.getLast?_concat _) htlid.symm hsorted2 hall2
          (by rw [hfind2, if_neg hcl]) hrp halign
    · -- pending gains exactly the new block at the end
      have hsp : segPending c tl2 = segPending c last ++ [b] := by
        by_cases hcl : c.segId = last.id
        · have hs₀last : s₀ = last := by
            have h1 : q.segments.find? (fun s => s.id == c.segId) = some last := by
              rw [hcl]; exact hfT
            rw [hfindL] at h1
            exact Option.some.inj h1
          have halign2 : isAligned last.recs c.offset = true := by
            rw [← hs₀last]; exact halign
          simp only [segPending, htlid]
          rw [if_neg (show ¬(last.id < c.segId) by omega),
            if_neg (show ¬(last.id < c.segId) by omega),
            if_pos (show last.id = c.segId from hcl.symm),
            if_pos (show last.id = c.segId from hcl.symm),
            recsAfter_append _ halign2, okBlocks_append]
          rfl
        · have hclt : c.segId < last.id := lt_of_le_of_ne hcle hcl
          simp only [segPending, htlid]
          rw [if_neg (show ¬(last.id < c.segId) by omega),
            if_neg (show ¬(last.id < c.segId) by omega),
            if_neg (show ¬(last.id = c.segId) by omega),
            if_neg (show ¬(last.id = c.segId) by omega),
            okBlocks_append]
          rfl
      have hpq : ({ updSeg q last.id (fun _ => tl2) with
          emptyInflight := false,
          appendN := q.appendN + 1, inflights := q.inflights + 1 } : Queue).pending
          = ((updSeg q last.id (fun _ => tl2)).segments.map (segPending c)).flatten := by
        simp [Queue.pending, updSeg_cursor, hc]
      rw [hpq, hsegs]
      have hq2 : q.pending = ((ys ++ [last]).map (segPending c)).flatten := by
        simp only [Queue.pending, hc]
        rw [hys]
      rw [hq2, List.map_append, List.map_append, List.flatten_append, List.flatten_append]
      simp only [List.map_cons, List.map_nil, List.flatten_cons, List.flatten_nil,
        List.append_nil]
      rw [hsp, List.append_assoc]

/-- A run of `queue.Append` calls, threading the queue state. -/
def appendAll (now : Int) (bs : List Block) (q : Queue) : Queue :=
  bs.foldl (fun qq b => (qq.Append now b).2) q

/-- Every `queue.Append` call of the run reported success. -/
def appendAllOk (now : Int) : List Block → Queue → Bool
  | [], _ => true
  | b :: bs, q => (q.Append now b).1.isNone && appendAllOk now bs (q.Append now b).2

/-- A run of `queue.Next` calls with a fresh scratch block, collecting the
successfully returned blocks (stopping at the first error). -/
def drainN (now : Int) : Nat → Queue → List Block × Queue
  | 0, q => ([], q)
  | n + 1, q =>
    match q.Next now ⟨[], []⟩ with
    | (.ok b, q2) => ((b :: (drainN now n q2).1), (drainN now n q2).2)
    | (.error _, q2) => ([], q2)

theorem appendAll_spec (now : Int) :
    ∀ (bs : List Block) (q : Queue), q.wf = true → q.maxSize ≤ 0 →
    (∀ b ∈ bs, b.size ≤ q.maxSegmentSize) →
    appendAllOk now bs q = true ∧ (appendAll now bs q).wf = true ∧
    (appendAll now bs q).pending = q.pending ++ bs ∧
    (appendAll now bs q).maxSize = q.maxSize ∧
    (appendAll now bs q).maxSegmentSize = q.maxSegmentSize := by
  intro bs
  induction bs with
  | nil =>
    intro q hwf hms hfit
    refine ⟨rfl, ?_, ?_, rfl, rfl⟩
    · exact hwf
    · simp [appendAll]
  | cons b bs ih =>
    intro q hwf hms hfit
    obtain ⟨h1, h2, h3, h4, h5, h6⟩ := append_ok now b hwf hms
      (hfit b (List.mem_cons_self _ _))
    have hstep : appendAll now (b :: bs) q = appendAll now bs (q.Append now b).2 := rfl
    obtain ⟨ih1, ih2, ih3, ih4, ih5⟩ := ih (q.Append now b).2 h2 (by omega)
      (by intro x hx; rw [h5]; exact hfit x (List.mem_cons_of_mem _ hx))
    refine ⟨?_, ?_, ?_, ?_, ?_⟩
    · show ((q.Append now b).1.isNone && appendAllOk now bs (q.Append now b).2) = true
      rw [h1, ih1]
      rfl
    · rw [hstep]; exact ih2
    · rw [hstep, ih3, h3, List.append_assoc]
      rfl
    · rw [hstep, ih4, h4]
    · rw [hstep, ih5, h5]

theorem drain_spec (now : Int) :
    ∀ (bs : List Block) (q : Queue), q.wf = true → q.pending = bs →
    (drainN now bs.length q).1 = bs := by
  intro bs
  induction bs with
  | nil => intro q hwf hp; rfl
  | cons b rest ih =>
    intro q hwf hp
    obtain ⟨c, t, last, s₀, hc, _, _, _, _, _, _, _, _⟩ := wf_destruct hwf
    have hbound : (q.segments.filter (fun s => decide (c.segId < s.id))).length
        < q.segments.length + 1 := by
      have := List.length_filter_le (fun s => decide (c.segId < s.id)) q.segments
      omega
    obtain ⟨IH1, _⟩ := nextLoop_spec now ⟨[], []⟩ (q.segments.length + 1) q c hc hwf hbound
    obtain ⟨q', c', heq, hwf', _, hpend', _⟩ := IH1 b rest hp
    show (drainN now (rest.length + 1) q).1 = b :: rest
    have hnext : q.Next now ⟨[], []⟩ = (.ok b, q') := heq
    simp only [drainN, hnext]
    rw [ih q' hwf' hpend']

/-! ### Claim theorems -/

/-- C1: per queue, in any run of successful Append calls followed by
successful Next calls with no delivery failures and no rollbacks, the
sequence of blocks returned by Next equals the sequence passed to Append, in
order, including across segment rollover (the theorem holds for every
`maxSegmentSize`, so in particular when the blocks span several segments). -/
theorem C1_fifo_order (now : Int) (bs : List Block) (q : Queue)
    (hwf : q.wf = true) (hms : q.maxSize ≤ 0)
    (hfit : ∀ b ∈ bs, b.size ≤ q.maxSegmentSize)
    (hempty : q.pending = []) :
    appendAllOk now bs q = true ∧
    (drainN now bs.length (appendAll now bs q)).1 = bs := by
  obtain ⟨h1, h2, h3, _, _⟩ := appendAll_spec now bs q hwf hms hfit
  refine ⟨h1, ?_⟩
  refine drain_spec now bs _ h2 ?_
  rw [h3, hempty]
  rfl

def q1w : Queue :=
  { segments := [⟨1, [], 40, 0, 0⟩], tailId := some 1, cursor := some ⟨1, 0⟩,
    maxSegmentSize := 40, maxSize := -1, maxAge := 0,
    appendN := 0, deliverN := 0, inflights := 0, emptyInflight := false }

def bs1w : List Block := [⟨[1], [2, 3]⟩, ⟨[4], []⟩, ⟨[5], [6]⟩]

theorem C1_fifo_order_witness :
    (q1w.wf = true ∧ q1w.maxSize ≤ 0 ∧ (∀ b ∈ bs1w, b.size ≤ q1w.maxSegmentSize) ∧
      q1w.pending = []) ∧
    (appendAllOk 0 bs1w q1w = true ∧
      (drainN 0 bs1w.length (appendAll 0 bs1w q1w)).1 = bs1w) :=
  ⟨⟨by decide, by decide, by decide, by decide⟩,
    C1_fifo_order 0 bs1w q1w (by decide) (by decide) (by decide) (by decide)⟩

def corruptQ : Queue :=
  { segments := [⟨1, [.corrupt 20], 100, 0, 0⟩], tailId := some 1, cursor := some ⟨1, 0⟩,
    maxSegmentSize := 100, maxSize := -1, maxAge := 0,
    appendN := 0, deliverN := 0, inflights := 0, emptyInflight := false }

/-- C2: evaluation of `queue.Next` at the failing input (a single-segment
queue whose tail record is corrupt).  The source's corrupt-tail branch tests
the outer `err` variable (always non-nil there) instead of the `addSegment`
error, so Next returns nil without installing the new segment as tail,
without filling the caller's block, and without advancing the cursor —
contradicting the claim that the new segment becomes the tail and the cursor
then advances (or `ErrEOQ` is returned). -/
theorem C2_corrupt_tail_divergence :
    (corruptQ.Next 0 ⟨[], []⟩).1 = .ok ⟨[], []⟩ ∧
    ((corruptQ.Next 0 ⟨[], []⟩).2).segments.map (fun s => s.id) = [1, 2] ∧
    ((corruptQ.Next 0 ⟨[], []⟩).2).tailId = some 1 ∧
    ((corruptQ.Next 0 ⟨[], []⟩).2).cursor = some ⟨1, 0⟩ ∧
    ((corruptQ.Next 0 ⟨[], []⟩).2).emptyInflight = false := by
  refine ⟨rfl, rfl, rfl, rfl, rfl⟩

/-- C3: on an open queue, Append returns `ErrQueueFull` exactly when
`maxSize > 0` and the total disk usage plus the block's size exceeds
`maxSize`; in that case the queue state (segments, counters, flag) is
unchanged. -/
theorem C3_queue_full_iff (q : Queue) (now : Int) (b : Block) (t : Nat)
    (hopen : q.tailId = some t) :
    ((q.Append now b).1 = some .QueueFull ↔
      (0 < q.maxSize ∧ q.maxSize < q.diskUsage + b.size)) ∧
    ((q.Append now b).1 = some .QueueFull → (q.Append now b).2 = q) := by
  by_cases hfull : 0 < q.maxSize ∧ q.maxSize < q.diskUsage + b.size
  · have heq : q.Append now b = (some .QueueFull, q) := by
      simp [Queue.Append, hopen, if_pos hfull]
    rw [heq]
    exact ⟨⟨fun _ => hfull, fun _ => rfl⟩, fun _ => rfl⟩
  · have hne : (q.Append now b).1 ≠ some .QueueFull := by
      cases hf : findSeg q t with
      | none => simp [Queue.Append, hopen, if_neg hfull, hf]
      | some tl =>
        by_cases hroom : tl.maxSize < tl.DiskUsage + b.size
        · by_cases hfit2 : (q.maxSegmentSize : Int)
              < Segment.DiskUsage ⟨q.nextSegmentID, [], q.maxSegmentSize, 0, now⟩ + b.size
          · simp [Queue.Append, hopen, if_neg hfull, hf, Segment.Append, if_pos hroom,
              Queue.addSegment, if_pos hfit2]
          · simp [Queue.Append, hopen, if_neg hfull, hf, Segment.Append, if_pos hroom,
              Queue.addSegment, if_neg hfit2]
        · simp [Queue.Append, hopen, if_neg hfull, hf, Segment.Append, if_neg hroom]
    exact ⟨⟨fun h => absurd h hne, fun h => absurd h hfull⟩, fun h => absurd h hne⟩

def q3w : Queue :=
  { segments := [⟨1, [], 100, 0, 0⟩], tailId := some 1, cursor := some ⟨1, 0⟩,
    maxSegmentSize := 100, maxSize := 10, maxAge := 0,
    appendN := 0, deliverN := 0, inflights := 0, emptyInflight := false }

theorem C3_queue_full_iff_witness :
    q3w.tailId = some 1 ∧
    (((q3w.Append 0 ⟨[], []⟩).1 = some .QueueFull ↔
        (0 < q3w.maxSize ∧ q3w.maxSize < q3w.diskUsage + Block.size ⟨[], []⟩)) ∧
      ((q3w.Append 0 ⟨[], []⟩).1 = some .QueueFull → (q3w.Append 0 ⟨[], []⟩).2 = q3w)) :=
  ⟨rfl, C3_queue_full_iff q3w 0 ⟨[], []⟩ 1 rfl⟩

/-- C4: when the tail segment reports `ErrSegmentFull`, Append creates exactly
one new segment (the next free id), installs it as tail, and the single retry
succeeds, so `ErrSegmentFull` is not surfaced (for blocks that fit in a fresh
segment, which all real blocks do since `maxBlockSize` is far below the
segment cap); and every successful Append, by either path, increments
`appendN` and `inflights` by exactly one and clears `emptyInflight`. -/
theorem C4_rollover_retry :
    (∀ (q : Queue) (now : Int) (b : Block) (t : Nat) (tl : Segment),
      q.tailId = some t → findSeg q t = some tl →
      ¬(0 < q.maxSize ∧ q.maxSize < q.diskUsage + b.size) →
      tl.maxSize < tl.DiskUsage + b.size →
      b.size ≤ q.maxSegmentSize →
      (q.Append now b).1 = none ∧
      (q.Append now b).2.segments
        = q.segments ++ [⟨q.nextSegmentID, [.ok b], q.maxSegmentSize, 0, now⟩] ∧
      (q.Append now b).2.tailId = some q.nextSegmentID) ∧
    (∀ (q q2 : Queue) (now : Int) (b : Block),
      q.Append now b = (none, q2) →
      q2.appendN = q.appendN + 1 ∧ q2.inflights = q.inflights + 1 ∧
      q2.emptyInflight = false) := by
  constructor
  · intro q now b t tl ht hf hadm hfull hfit
    have heq := Append_rollover now b ht hf hadm hfull hfit
    rw [heq]
    exact ⟨rfl, rfl, rfl⟩
  · intro q q2 now b heq
    cases ht : q.tailId with
    | none => rw [Queue.Append, ht] at heq; simp at heq
    | some t =>
      by_cases hfull : 0 < q.maxSize ∧ q.maxSize < q.diskUsage + b.size
      · rw [show q.Append now b = (some .QueueFull, q) by
          simp [Queue.Append, ht, if_pos hfull]] at heq
        simp at heq
      · cases hf : findSeg q t with
        | none =>
          rw [show q.Append now b = (some .QueueNotOpen, q) by
            simp [Queue.Append, ht, if_neg hfull, hf]] at heq
          simp at heq
        | some tl =>
          by_cases hroom : tl.maxSize < tl.DiskUsage + b.size
          · by_cases hfit2 : (q.maxSegmentSize : Int)
                < Segment.DiskUsage ⟨q.nextSegmentID, [], q.maxSegmentSize, 0, now⟩ + b.size
            · exfalso
              have hbad : (q.Append now b).1 = some .SegmentFull := by
                simp [Queue.Append, ht, if_neg hfull, hf, Segment.Append, if_pos hroom,
                  Queue.addSegment, if_pos hfit2]
              rw [heq] at hbad
              simp at hbad
            · have hfit : b.size ≤ q.maxSegmentSize := by
                simp only [Segment.DiskUsage, recsSize, not_lt] at hfit2
                omega
              have h2 := Append_rollover now b ht hf hfull hroom hfit
              rw [h2] at heq
              simp only [Prod.mk.injEq, true_and] at heq
              subst heq
              exact ⟨rfl, rfl, rfl⟩
          · have h2 := Append_direct now b ht hf hfull hroom
            rw [h2] at heq
            simp only [Prod.mk.injEq, true_and] at heq
            subst heq
            exact ⟨rfl, rfl, rfl⟩

def q4w : Queue :=
  { segments := [⟨1, [.ok ⟨[], []⟩], 20, 0, 0⟩], tailId := some 1, cursor := some ⟨1, 0⟩,
    maxSegmentSize := 20, maxSize := -1, maxAge := 0,
    appendN := 3, deliverN := 0, inflights := 2, emptyInflight := true }

theorem C4_rollover_retry_witness :
    (q4w.tailId = some 1 ∧ findSeg q4w 1 = some ⟨1, [.ok ⟨[], []⟩], 20, 0, 0⟩ ∧
      ((q4w.Append 0 ⟨[7], []⟩).1 = none ∧
        (q4w.Append 0 ⟨[7], []⟩).2.segments
          = q4w.segments ++ [⟨q4w.nextSegmentID, [.ok ⟨[7], []⟩], q4w.maxSegmentSize, 0, 0⟩] ∧
        (q4w.Append 0 ⟨[7], []⟩).2.tailId = some q4w.nextSegmentID)) ∧
    ((q4w.Append 0 ⟨[7], []⟩).2.appendN = q4w.appendN + 1 ∧
      (q4w.Append 0 ⟨[7], []⟩).2.inflights = q4w.inflights + 1 ∧
      (q4w.Append 0 ⟨[7], []⟩).2.emptyInflight = false) :=
  ⟨⟨rfl, rfl,
      C4_rollover_retry.1 q4w 0 ⟨[7], []⟩ 1 ⟨1, [.ok ⟨[], []⟩], 20, 0, 0⟩ rfl rfl
        (by decide) (by decide) (by decide)⟩,
    C4_rollover_retry.2 q4w (q4w.Append 0 ⟨[7], []⟩).2 0 ⟨[7], []⟩ (by decide)⟩

/-- C10: calling Next on a never-opened queue, or on a queue after Close has
completed (which nils the cursor), returns `ErrQueueNotOpen` without reading
anything and without modifying any counter or flag (the state is returned
unchanged) rather than crashing. -/
theorem C10_next_not_open :
    (∀ (mss ms ma now : Int) (bIn : Block),
      (newQueue mss ms ma).Next now bIn = (.error .QueueNotOpen, newQueue mss ms ma)) ∧
    (∀ (q : Queue) (now : Int) (bIn : Block),
      (q.Close).Next now bIn = (.error .QueueNotOpen, q.Close)) := by
  constructor
  · intro mss ms ma now bIn
    rfl
  · intro q now bIn
    rfl

/-- C8: with `maxSize > 0`, immediately after every successful Append the
total disk usage is at most `maxSize + maxBlockSize - 1` (the admission check
in fact keeps it at `maxSize` or below, which implies the claimed bound),
assuming appended blocks are no larger than `maxBlockSize`. -/
theorem C8_bounded_usage (q : Queue) (now : Int) (b : Block)
    (hwf : q.wf = true) (hms : 0 < q.maxSize) (hbs : b.size ≤ maxBlockSize)
    (hok : (q.Append now b).1 = none) :
    (q.Append now b).2.diskUsage ≤ q.maxSize + maxBlockSize - 1 := by
  obtain ⟨c, t, last, s₀, hc, ht, hlast, htid, hsorted, hall, hfind, hrp, halign⟩ :=
    wf_destruct hwf
  subst htid
  have hlastmem : last ∈ q.segments := mem_of_getLast? hlast
  have hfT : findSeg q last.id = some last := findSeg_sorted_mem hsorted hlastmem
  have hmb : (1 : Int) ≤ maxBlockSize := by decide
  by_cases hfull : 0 < q.maxSize ∧ q.maxSize < q.diskUsage + b.size
  · exfalso
    rw [show q.Append now b = (some .QueueFull, q) by
      simp [Queue.Append, ht, if_pos hfull]] at hok
    simp at hok
  · have hle : q.diskUsage + b.size ≤ q.maxSize := by omega
    by_cases hroom : last.maxSize < last.DiskUsage + b.size
    · by_cases hfit : b.size ≤ q.maxSegmentSize
      · have heq := Append_rollover now b ht hfT hfull hroom hfit
        rw [heq]
        have h1 : sumSizes (q.segments
            ++ [⟨q.nextSegmentID, [.ok b], q.maxSegmentSize, 0, now⟩])
            = q.diskUsage + b.size := by
          rw [sumSizes_append]
          show sumSizes q.segments
              + sumSizes [⟨q.nextSegmentID, [.ok b], q.maxSegmentSize, 0, now⟩]
              = sumSizes q.segments + b.size
          simp only [sumSizes, Segment.DiskUsage, recsSize, Rec.size]
          ring
        show sumSizes _ ≤ _
        rw [h1]
        omega
      · exfalso
        have hfit2 : (q.maxSegmentSize : Int)
            < Segment.DiskUsage ⟨q.nextSegmentID, [], q.maxSegmentSize, 0, now⟩ + b.size := by
          show q.maxSegmentSize < (0 : Int) + b.size
          omega
        rw [show (q.Append now b).1 = some .SegmentFull by
          simp [Queue.Append, ht, if_neg hfull, hfT, Segment.Append, if_pos hroom,
            Queue.addSegment, if_pos hfit2]] at hok
        simp at hok
    · have heq := Append_direct now b ht hfT hfull hroom
      rw [heq]
      obtain ⟨ys, hys⟩ := List.getLast?_eq_some_iff.mp hlast
      have hlt : ∀ s ∈ ys, s.id < last.id :=
        sorted_lt_concat (by rw [← hys]; exact hsorted)
      have hsegs : (updSeg q last.id
          (fun _ => { last with recs := last.recs ++ [.ok b], lastModified := now })).segments
          = ys ++ [{ last with recs := last.recs ++ [.ok b], lastModified := now }] := by
        rw [updSeg_segments, hys]
        exact map_upd_concat hlt
      have h1 : sumSizes ((updSeg q last.id
          (fun _ => { last with recs := last.recs ++ [.ok b], lastModified := now })).segments)
          = q.diskUsage + b.size := by
        rw [hsegs, sumSizes_append]
        show sumSizes ys
            + sumSizes [{ last with recs := last.recs ++ [.ok b], lastModified := now }]
            = sumSizes q.segments + b.size
        rw [hys, sumSizes_append]
        simp only [sumSizes, Segment.DiskUsage, recsSize_append, recsSize, Rec.size]
        ring
      show sumSizes _ ≤ _
      rw [h1]
      omega

def q8w : Queue :=
  { segments := [⟨1, [], 50, 0, 0⟩], tailId := some 1, cursor := some ⟨1, 0⟩,
    maxSegmentSize := 50, maxSize := 100, maxAge := 0,
    appendN := 0, deliverN := 0, inflights := 0, emptyInflight := false }

theorem C8_bounded_usage_witness :
    (q8w.wf = true ∧ 0 < q8w.maxSize ∧ Block.size ⟨[], []⟩ ≤ maxBlockSize ∧
      (q8w.Append 0 ⟨[], []⟩).1 = none) ∧
    (q8w.Append 0 ⟨[], []⟩).2.diskUsage ≤ q8w.maxSize + maxBlockSize - 1 :=
  ⟨⟨by decide, by decide, by decide, by decide⟩,
    C8_bounded_usage q8w 0 ⟨[], []⟩ (by decide) (by decide) (by decide) (by decide)⟩

def q5x : Queue :=
  { segments := [⟨1, [.ok ⟨[0], []⟩], 100, 15, 0⟩, ⟨2, [.ok ⟨[1], []⟩], 100, 0, 0⟩],
    tailId := some 2, cursor := some ⟨1, 15⟩,
    maxSegmentSize := 100, maxSize := -1, maxAge := 0,
    appendN := 0, deliverN := 0, inflights := 0, emptyInflight := false }

/-- C5 counterexample: when Next crosses a segment boundary (cursor at the
end of segment 1, block read from segment 2), Rollback rewinds to the start
of segment 2, which is not the cursor state before that Next (segment 1,
offset 15) — so Rollback does not literally restore "the cursor to its state
before that Next". -/
theorem C5_cross_segment_counterexample :
    (q5x.Next 0 ⟨[], []⟩).1 = .ok ⟨[1], []⟩ ∧
    ((q5x.Next 0 ⟨[], []⟩).2.Rollback ⟨[1], []⟩).1 = none ∧
    ((q5x.Next 0 ⟨[], []⟩).2.Rollback ⟨[1], []⟩).2.cursor = some ⟨2, 0⟩ ∧
    q5x.cursor = some ⟨1, 15⟩ ∧
    ((q5x.Next 0 ⟨[], []⟩).2.Rollback ⟨[1], []⟩).2.cursor ≠ q5x.cursor := by
  refine ⟨rfl, rfl, rfl, rfl, ?_⟩
  decide

/-- C5 (amended): for a block `b` just returned by a successful Next,
Rollback(b) rewinds the cursor offset by `b.size()` and seeks the cursor's
segment back, restoring the cursor to the position from which `b` was read
(which lies on a later segment than the pre-Next cursor when Next crossed a
segment boundary); consequently the next Next returns `b` again followed by
the blocks after it in order (the pending sequence regains `b` at its head),
and `emptyInflight` is 0 after Rollback. -/
theorem C5_rollback_redelivers (now : Int) (bIn bIn2 : Block) (q : Queue) (b : Block)
    (rest : List Block) (hwf : q.wf = true) (hpend : q.pending = b :: rest) :
    (q.Next now bIn).1 = .ok b ∧
    ((q.Next now bIn).2.Rollback b).1 = none ∧
    ((q.Next now bIn).2.Rollback b).2.emptyInflight = false ∧
    ((q.Next now bIn).2.Rollback b).2.pending = b :: rest ∧
    (((q.Next now bIn).2.Rollback b).2.Next now bIn2).1 = .ok b := by
  obtain ⟨c, t, last, s₀, hc, _, _, _, _, _, _, _, _⟩ := wf_destruct hwf
  have hbound : (q.segments.filter (fun s => decide (c.segId < s.id))).length
      < q.segments.length + 1 := by
    have := List.length_filter_le (fun s => decide (c.segId < s.id)) q.segments
    omega
  obtain ⟨IH1, _⟩ := nextLoop_spec now bIn (q.segments.length + 1) q c hc hwf hbound
  obtain ⟨q', c', heq, hwf', hc', hpend', hflag', ht', hms', hmss', hma', han', hdn',
    hin', hsz', s', hfs', ha', he'⟩ := IH1 b rest hpend
  have hNext : q.Next now bIn = (.ok b, q') := heq
  rw [hNext]
  obtain ⟨heq2, hwf2, hpend2, hflag2, hc2, ht2, hlen2⟩ :=
    rollback_spec hwf' hc' hfs' hsz' ha' he'
  refine ⟨rfl, by rw [heq2], hflag2, by rw [hpend2, hpend'], ?_⟩
  obtain ⟨c3, t3, last3, s3, hc3, _, _, _, _, _, _, _, _⟩ := wf_destruct hwf2
  have hbound3 : ((q'.Rollback b).2.segments.filter
      (fun s => decide (c3.segId < s.id))).length
      < (q'.Rollback b).2.segments.length + 1 := by
    have := List.length_filter_le (fun s => decide (c3.segId < s.id))
      (q'.Rollback b).2.segments
    omega
  obtain ⟨IH1b, _⟩ := nextLoop_spec now bIn2 ((q'.Rollback b).2.segments.length + 1)
    (q'.Rollback b).2 c3 hc3 hwf2 hbound3
  obtain ⟨q3, c4, heq3, _⟩ := IH1b b rest (by rw [hpend2, hpend'])
  show ((q'.Rollback b).2.Next now bIn2).1 = .ok b
  rw [show (q'.Rollback b).2.Next now bIn2 = (.ok b, q3) from heq3]

theorem C5_rollback_redelivers_witness :
    (q5x.wf = true ∧ q5x.pending = [⟨[1], []⟩]) ∧
    ((q5x.Next 0 ⟨[], []⟩).1 = .ok ⟨[1], []⟩ ∧
      ((q5x.Next 0 ⟨[], []⟩).2.Rollback ⟨[1], []⟩).1 = none ∧
      ((q5x.Next 0 ⟨[], []⟩).2.Rollback ⟨[1], []⟩).2.emptyInflight = false ∧
      ((q5x.Next 0 ⟨[], []⟩).2.Rollback ⟨[1], []⟩).2.pending = [⟨[1], []⟩] ∧
      (((q5x.Next 0 ⟨[], []⟩).2.Rollback ⟨[1], []⟩).2.Next 0 ⟨[], []⟩).1 = .ok ⟨[1], []⟩) :=
  ⟨⟨by decide, by decide⟩,
    C5_rollback_redelivers 0 ⟨[], []⟩ ⟨[], []⟩ q5x ⟨[1], []⟩ [] (by decide) (by decide)⟩

/-- C6: when Next's read hits EOF, the cursor advances to the first segment
with a strictly greater id and continues reading there from offset 0; when no
such segment exists, `emptyInflight` is set to 1 and Next returns `ErrEOQ`,
so `EmptyInflight()` is true immediately afterwards. -/
theorem C6_eof_advance (q : Queue) (now : Int) (bIn : Block) (c : Cursor) (seg : Segment)
    (hwf : q.wf = true) (hc : q.cursor = some c) (hfind : findSeg q c.segId = some seg)
    (heof : recsReadAt seg.recs seg.readPos = .error .EOF) :
    ((q.segments.find? (fun s => decide (c.segId < s.id)) = none →
      q.Next now bIn = (.error .EOQ, { q with emptyInflight := true }) ∧
      ({ q with emptyInflight := true } : Queue).EmptyInflight = true) ∧
     (∀ s2 b, q.segments.find? (fun s => decide (c.segId < s.id)) = some s2 →
      recsReadAt s2.recs 0 = .ok b →
      (q.Next now bIn).1 = .ok b ∧
      (q.Next now bIn).2.cursor = some ⟨s2.id, b.size⟩ ∧
      (q.Next now bIn).2.emptyInflight = false)) := by
  obtain ⟨c0, t, last, s₀, hc0, ht, hlast, htid, hsorted, hall, hfind0, hrp, halign⟩ :=
    wf_destruct hwf
  rw [hc] at hc0
  obtain rfl : c = c0 := Option.some.inj hc0
  constructor
  · intro hadv
    constructor
    · show nextLoop now bIn (q.segments.length + 1) q = _
      simp only [nextLoop, hc, hfind, heof, Queue.advanceSegment, hadv]
    · rfl
  · intro s2 b hadv hb
    have hs2mem : s2 ∈ q.segments := List.mem_of_find?_eq_some hadv
    have hpos : 0 < q.segments.length :=
      List.length_pos.mpr (List.ne_nil_of_mem hs2mem)
    obtain ⟨m, hm⟩ : ∃ m, q.segments.length = m + 1 :=
      ⟨q.segments.length - 1, by omega⟩
    have hfind3 : findSeg ({ updSeg q s2.id (fun x => x.Seek 0) with
        cursor := some ⟨s2.id, 0⟩ } : Queue) s2.id = some (s2.Seek 0) := by
      show (q.segments.map (fun s => if s.id == s2.id then s.Seek 0 else s)).find?
        (fun s => s.id == s2.id) = some (s2.Seek 0)
      rw [find?_upd q.segments s2.id s2.id (fun x => x.Seek 0) (fun s h => rfl),
        findSeg_sorted_mem hsorted hs2mem]
      simp
    have hstep : q.Next now bIn = nextLoop now bIn q.segments.length
        { updSeg q s2.id (fun x => x.Seek 0) with cursor := some ⟨s2.id, 0⟩ } := by
      show nextLoop now bIn (q.segments.length + 1) q = _
      simp only [nextLoop, hc, hfind, heof, Queue.advanceSegment, hadv]
    have hnneg : ¬((0 : Int) + b.size < 0) := by
      have := b.size_pos
      omega
    have hread2 : recsReadAt (s2.Seek 0).recs (s2.Seek 0).readPos = .ok b := hb
    rw [hstep, hm]
    simp only [nextLoop, hfind3, hread2, if_neg hnneg, zero_add]
    exact ⟨rfl, rfl, rfl⟩

def q6w : Queue :=
  { segments := [⟨1, [.ok ⟨[0], []⟩], 100, 15, 0⟩, ⟨2, [.ok ⟨[1], []⟩], 100, 0, 0⟩],
    tailId := some 2, cursor := some ⟨1, 15⟩,
    maxSegmentSize := 100, maxSize := -1, maxAge := 0,
    appendN := 0, deliverN := 0, inflights := 0, emptyInflight := false }

theorem C6_eof_advance_witness :
    (q6w.wf = true ∧ recsReadAt (⟨1, [.ok ⟨[0], []⟩], 100, 15, 0⟩ : Segment).recs
        (⟨1, [.ok ⟨[0], []⟩], 100, 15, 0⟩ : Segment).readPos = .error .EOF) ∧
    ((q6w.Next 0 ⟨[], []⟩).1 = .ok ⟨[1], []⟩ ∧
      (q6w.Next 0 ⟨[], []⟩).2.cursor = some ⟨2, Block.size ⟨[1], []⟩⟩ ∧
      (q6w.Next 0 ⟨[], []⟩).2.emptyInflight = false) :=
  ⟨⟨by decide, by rfl⟩,
    (C6_eof_advance q6w 0 ⟨[], []⟩ ⟨1, 15⟩ ⟨1, [.ok ⟨[0], []⟩], 100, 15, 0⟩
        (by decide) rfl rfl (by rfl)).2
      ⟨2, [.ok ⟨[1], []⟩], 100, 0, 0⟩ ⟨[1], []⟩ rfl (by rfl)⟩

theorem purgeLoop_spec (now : Int) :
    ∀ (n : Nat) (q : Queue) (c : Cursor), q.cursor = some c →
    (∃ s ∈ q.segments, s.id = c.segId) →
    q.segments.length ≤ n →
    (purgeLoop now n q).segments
      = q.segments.dropWhile
          (fun s => decide (s.id < c.segId) && decide (s.lastModified + q.maxAge < now)) ∧
    (purgeLoop now n q).cursor = q.cursor ∧
    (purgeLoop now n q).tailId = q.tailId := by
  intro n
  induction n with
  | zero =>
    intro q c hc hmem hlen
    obtain ⟨s₁, hs₁, _⟩ := hmem
    have : q.segments = [] := List.length_eq_zero.mp (by omega)
    rw [this] at hs₁
    simp at hs₁
  | succ n ih =>
    intro q c hc hmem hlen
    obtain ⟨s₁, hs₁mem, hs₁id⟩ := hmem
    cases hsegs : q.segments with
    | nil =>
      rw [hsegs] at hs₁mem
      simp at hs₁mem
    | cons hd tl =>
      by_cases hcond : (decide (hd.id < c.segId)
          && decide (hd.lastModified + q.maxAge < now)) = true
      · have hpc : purgeCond q now = true := by
          simp only [purgeCond, hc, hsegs, List.head?_cons]
          exact hcond
        have hne : tl ≠ [] := by
          intro hnil
          have h1 : s₁ = hd := by
            rw [hsegs, hnil] at hs₁mem
            simpa using hs₁mem
          simp only [Bool.and_eq_true, decide_eq_true_eq] at hcond
          rw [h1] at hs₁id
          omega
        have htrim : (q.trimHead).2 = { q with segments := q.segments.tail } := by
          simp only [Queue.trimHead]
          rw [if_neg]
          rw [hsegs]
          cases tl with
          | nil => exact absurd rfl hne
          | cons a b => simp
        have hs₁tl : s₁ ∈ tl := by
          rw [hsegs] at hs₁mem
          rcases List.mem_cons.mp hs₁mem with h1 | h1
          · simp only [Bool.and_eq_true, decide_eq_true_eq] at hcond
            rw [h1] at hs₁id
            omega
          · exact h1
        have hloop : purgeLoop now (n + 1) q = purgeLoop now n (q.trimHead).2 := by
          simp only [purgeLoop, hpc, if_true]
        obtain ⟨ih1, ih2, ih3⟩ := ih (q.trimHead).2 c
          (by rw [htrim]; exact hc)
          (by rw [htrim]; exact ⟨s₁, by rw [hsegs]; exact hs₁tl, hs₁id⟩)
          (by rw [htrim]; simp only []; rw [hsegs]; simp only [List.tail_cons];
              rw [hsegs] at hlen; simp only [List.length_cons] at hlen; omega)
        rw [hloop, ih1, ih2, ih3, htrim]
        refine ⟨?_, rfl, rfl⟩
        rw [hsegs]
        simp only [List.tail_cons, List.dropWhile_cons, hcond, if_true]
      · have hpc : purgeCond q now = false := by
          simp only [purgeCond, hc, hsegs, List.head?_cons]
          exact (Bool.not_eq_true _).mp hcond
        have hloop : purgeLoop now (n + 1) q = q := by
          simp only [purgeLoop, hpc]
          rfl
        rw [hloop]
        refine ⟨?_, rfl, rfl⟩
        rw [hsegs, List.dropWhile_cons, if_neg hcond]

/-- C7: one Purge call removes exactly the leading run of segments whose id is
below the cursor's segment id and whose last-modified time plus `maxAge` is
before `now` (the longest such prefix); the head advances to the first
surviving segment, no segment at or ahead of the cursor is removed, and at
least one segment (the cursor's) always remains. -/
theorem C7_purge_old_prefix (q : Queue) (now : Int) (c : Cursor) (s₁ : Segment)
    (hc : q.cursor = some c) (hmem : s₁ ∈ q.segments) (hid : s₁.id = c.segId) :
    (q.Purge now).segments
      = q.segments.dropWhile
          (fun s => decide (s.id < c.segId) && decide (s.lastModified + q.maxAge < now)) ∧
    q.segments
      = q.segments.takeWhile
          (fun s => decide (s.id < c.segId) && decide (s.lastModified + q.maxAge < now))
        ++ (q.Purge now).segments ∧
    (∀ s ∈ q.segments.takeWhile
        (fun s => decide (s.id < c.segId) && decide (s.lastModified + q.maxAge < now)),
      s.id < c.segId) ∧
    (q.Purge now).segments ≠ [] ∧
    (∃ s ∈ (q.Purge now).segments, s.id = c.segId) ∧
    (q.Purge now).cursor = q.cursor := by
  have hmain : (q.Purge now).segments
      = q.segments.dropWhile
          (fun s => decide (s.id < c.segId) && decide (s.lastModified + q.maxAge < now)) ∧
      (q.Purge now).cursor = q.cursor := by
    by_cases hshort : q.segments.length ≤ 1
    · have hq : q.Purge now = q := by
        simp only [Queue.Purge, if_pos hshort]
      rw [hq]
      refine ⟨?_, rfl⟩
      cases hsegs : q.segments with
      | nil => rfl
      | cons hd tl =>
        have htl : tl = [] := by
          rw [hsegs] at hshort
          simp only [List.length_cons] at hshort
          exact List.length_eq_zero.mp (by omega)
        subst htl
        have h1 : s₁ = hd := by
          rw [hsegs] at hmem
          simpa using hmem
        rw [List.dropWhile_cons, if_neg]
        rw [h1] at hid
        simp only [Bool.and_eq_true, decide_eq_true_eq]
        intro h2
        omega
    · have hq : q.Purge now = purgeLoop now q.segments.length q := by
        simp only [Queue.Purge, if_neg hshort]
      rw [hq]
      obtain ⟨h1, h2, _⟩ := purgeLoop_spec now q.segments.length q c hc
        ⟨s₁, hmem, hid⟩ (le_refl _)
      exact ⟨h1, h2⟩
  obtain ⟨hdrop, hcur⟩ := hmain
  have htake := List.takeWhile_append_dropWhile
    (fun s => decide (s.id < c.segId) && decide (s.lastModified + q.maxAge < now)) q.segments
  have himp : ∀ s ∈ q.segments.takeWhile
      (fun s => decide (s.id < c.segId) && decide (s.lastModified + q.maxAge < now)),
      s.id < c.segId := by
    intro s hs
    have := List.mem_takeWhile_imp hs
    simp only [Bool.and_eq_true, decide_eq_true_eq] at this
    exact this.1
  have hsurvive : s₁ ∈ (q.Purge now).segments := by
    rw [hdrop]
    have hsplit : s₁ ∈ q.segments.takeWhile
        (fun s => decide (s.id < c.segId) && decide (s.lastModified + q.maxAge < now))
        ∨ s₁ ∈ q.segments.dropWhile
        (fun s => decide (s.id < c.segId) && decide (s.lastModified + q.maxAge < now)) := by
      rw [← List.mem_append, htake]
      exact hmem
    rcases hsplit with h1 | h1
    · exfalso
      have := himp s₁ h1
      omega
    · exact h1
  refine ⟨hdrop, by rw [hdrop, htake], himp, ?_, ⟨s₁, hsurvive, hid⟩, hcur⟩
  exact List.ne_nil_of_mem hsurvive

def q7w : Queue :=
  { segments := [⟨1, [.ok ⟨[], []⟩], 100, 14, 0⟩, ⟨2, [], 100, 0, 50⟩],
    tailId := some 2, cursor := some ⟨2, 0⟩,
    maxSegmentSize := 100, maxSize := -1, maxAge := 10,
    appendN := 0, deliverN := 0, inflights := 0, emptyInflight := false }

theorem C7_purge_old_prefix_witness :
    (q7w.cursor = some ⟨2, 0⟩ ∧ (⟨2, [], 100, 0, 50⟩ : Segment) ∈ q7w.segments) ∧
    ((q7w.Purge 1000).segments
        = q7w.segments.dropWhile
            (fun s => decide (s.id < 2) && decide (s.lastModified + q7w.maxAge < 1000)) ∧
      (q7w.Purge 1000).segments ≠ [] ∧
      (q7w.Purge 1000).cursor = q7w.cursor) :=
  ⟨⟨rfl, by decide⟩, by
    obtain ⟨h1, _, _, h4, _, h6⟩ := C7_purge_old_prefix q7w 1000 ⟨2, 0⟩
      ⟨2, [], 100, 0, 50⟩ rfl (by decide) rfl
    exact ⟨h1, h4, h6⟩⟩

theorem sorted_cons_of {x : Segment} {ys : List Segment} (hs : sortedIds ys = true)
    (hlt : ∀ s ∈ ys, x.id < s.id) : sortedIds (x :: ys) = true := by
  cases ys with
  | nil => rfl
  | cons y t =>
    simp only [sortedIds, Bool.and_eq_true, decide_eq_true_eq]
    exact ⟨hlt y (List.mem_cons_self _ _), hs⟩

theorem sorted_filter {l : List Segment} (p : Segment → Bool)
    (hs : sortedIds l = true) : sortedIds (l.filter p) = true := by
  induction l with
  | nil => rfl
  | cons x xs ih =>
    rw [List.filter_cons]
    by_cases hp : p x = true
    · rw [if_pos hp]
      refine sorted_cons_of (ih (sorted_tail hs)) ?_
      intro s hmem
      exact sorted_head_lt hs s (List.mem_of_mem_filter hmem)
    · rw [if_neg hp]
      exact ih (sorted_tail hs)

theorem openSegs_sorted (mss : Int) (disk : List Segment) (ckpt : Option Cursor)
    (now : Int) (hs : sortedIds disk = true) :
    sortedIds (openSegs mss disk ckpt now) = true := by
  cases ckpt with
  | none =>
    simp only [openSegs]
    by_cases hempty : (loadSegments disk 0).isEmpty = true
    · rw [if_pos hempty]
      rfl
    · rw [if_neg hempty]
      exact sorted_filter _ hs
  | some c =>
    simp only [openSegs]
    by_cases hempty : (loadSegments disk c.segId).isEmpty = true
    · rw [if_pos hempty]
      rfl
    · rw [if_neg hempty]
      exact sorted_filter _ hs

def q9c : Queue := openQueue 100 (-1) 0 false [] none 0

def q9d : Queue := openQueue 100 (-1) 0 false [⟨3, [], 100, 0, 0⟩] (some ⟨5, 0⟩) 7

/-- C9 counterexample, refuting both clauses of the claim.  Flag clause: a
fresh queue opened over an empty directory creates segment 1 and positions
the cursor at the end of the tail (offset 0 equals the empty tail's disk
usage), yet `EmptyInflight()` returns false — `Open` only ever clears the
flag, it never sets it.  Creation clause: opening over a directory holding
only the stale segment 3 with checkpoint SegmentID 5 loads no segment, and
the segment then created has id 4 (`nextSegmentID` scans the directory for
the largest id and adds 1), not id 1 as the claim says. -/
theorem C9_open_flag_counterexample :
    (q9c.cursor = some ⟨1, 0⟩ ∧ q9c.tailId = some 1 ∧
      atEndOfTail q9c = true ∧ q9c.EmptyInflight = false) ∧
    (loadSegments [⟨3, [], 100, 0, 0⟩] 5 = [] ∧
      q9d.segments.map (fun s => s.id) = [4]) := by
  refine ⟨⟨rfl, rfl, rfl, rfl⟩, rfl, rfl⟩

/-- C9 (amended): after a successful Open, `EmptyInflight()` is false whenever
the cursor's segment is not the tail or its offset differs from the tail's
disk usage; when the cursor is exactly at the end of the tail, the flag
merely keeps the value it had before Open (so it is true only if it was
already set — Open never sets it).  When no segment with id at least the
checkpointed SegmentID exists, Open creates one empty segment whose id is
one greater than the largest on-disk id (so id 1 for an empty directory),
and it sets head to the lowest-id and tail to the highest-id segment. -/
theorem C9_open_amended (mss ms ma : Int) (pf : Bool) (disk : List Segment)
    (ckpt : Option Cursor) (now : Int) (hs : sortedIds disk = true) :
    (∀ c2 z, (openQueue mss ms ma pf disk ckpt now).cursor = some c2 →
      (openQueue mss ms ma pf disk ckpt now).segments.getLast? = some z →
      ((c2.segId ≠ z.id ∨ c2.offset ≠ z.DiskUsage) →
        (openQueue mss ms ma pf disk ckpt now).EmptyInflight = false) ∧
      ((c2.segId = z.id ∧ c2.offset = z.DiskUsage) →
        (openQueue mss ms ma pf disk ckpt now).EmptyInflight = pf)) ∧
    (loadSegments disk (match ckpt with | none => 0 | some c => c.segId) = [] →
      (openQueue mss ms ma pf disk ckpt now).segments.map (fun s => s.id)
        = [disk.foldl (fun m s => max m s.id) 0 + 1] ∧
      (openQueue mss ms ma pf disk ckpt now).segments.map (fun s => s.recs) = [[]]) ∧
    (∀ s ∈ (openQueue mss ms ma pf disk ckpt now).segments,
      (∀ h2, (openQueue mss ms ma pf disk ckpt now).segments.head? = some h2 →
        h2.id ≤ s.id) ∧
      (∀ t2, (openQueue mss ms ma pf disk ckpt now).tailId = some t2 → s.id ≤ t2)) := by
  have hsegseq : (openQueue mss ms ma pf disk ckpt now).segments
      = openSegs2 mss disk ckpt now := rfl
  have hflageq : (openQueue mss ms ma pf disk ckpt now).emptyInflight
      = openFlag (openSegs2 mss disk ckpt now)
          (openCursor (openSegs mss disk ckpt now) ckpt) pf := rfl
  have hsorted0 : sortedIds (openSegs mss disk ckpt now) = true :=
    openSegs_sorted mss disk ckpt now hs
  have hsorted2 : sortedIds (openSegs2 mss disk ckpt now) = true := by
    simp only [openSegs2]
    rw [sorted_map]
    · exact hsorted0
    · intro s
      by_cases hif : (s.id == (openCursor (openSegs mss disk ckpt now) ckpt).segId) = true
      · simp [hif, Segment.Seek]
      · simp [hif]
  refine ⟨?_, ?_, ?_⟩
  · intro c2 z hc2 hgl
    have hc2' : c2 = openCursor (openSegs mss disk ckpt now) ckpt :=
      (Option.some.inj hc2).symm
    subst hc2'
    rw [hsegseq] at hgl
    constructor
    · intro hne
      show openFlag (openSegs2 mss disk ckpt now)
          (openCursor (openSegs mss disk ckpt now) ckpt) pf = false
      simp only [openFlag, hgl]
      rw [if_neg]
      simp only [Bool.and_eq_true, beq_iff_eq]
      intro h
      rcases hne with hne | hne
      · exact hne h.1
      · exact hne h.2
    · intro hat
      show openFlag (openSegs2 mss disk ckpt now)
          (openCursor (openSegs mss disk ckpt now) ckpt) pf = pf
      simp only [openFlag, hgl]
      rw [if_pos]
      simp only [Bool.and_eq_true, beq_iff_eq]
      exact hat
  · intro hload
    have h1 : openSegs mss disk ckpt now
        = [⟨disk.foldl (fun m s => max m s.id) 0 + 1, [], mss, 0, now⟩] := by
      cases ckpt with
      | none =>
        have hload2 : (loadSegments disk 0).isEmpty = true := by
          rw [show loadSegments disk 0 = [] from hload]
          rfl
        simp only [openSegs]
        rw [if_pos hload2]
      | some c =>
        have hload2 : (loadSegments disk c.segId).isEmpty = true := by
          rw [show loadSegments disk c.segId = [] from hload]
          rfl
        simp only [openSegs]
        rw [if_pos hload2]
    rw [hsegseq]
    simp only [openSegs2, h1, List.map_cons, List.map_nil]
    constructor
    · split <;> rfl
    · split <;> rfl
  · intro s hsmem
    constructor
    · intro h2 hh2
      rw [hsegseq] at hsmem hh2
      cases hsegs2 : openSegs2 mss disk ckpt now with
      | nil => rw [hsegs2] at hsmem; simp at hsmem
      | cons a rest =>
        rw [hsegs2] at hsmem hh2
        simp only [List.head?_cons, Option.some_inj] at hh2
        subst hh2
        rcases List.mem_cons.mp hsmem with rfl | hsmem
        · exact le_refl _
        · have hs2 := hsorted2
          rw [hsegs2] at hs2
          exact le_of_lt (sorted_head_lt hs2 s hsmem)
    · intro t2 ht2
      rw [hsegseq] at hsmem
      have ht2' : openTailId (openSegs2 mss disk ckpt now) = some t2 := ht2
      cases hgl : (openSegs2 mss disk ckpt now).getLast? with
      | none =>
        rw [openTailId, hgl] at ht2'
        simp at ht2'
      | some z =>
        rw [openTailId, hgl] at ht2'
        simp only [Option.some_inj] at ht2'
        subst ht2'
        exact sorted_le_last hsorted2 hgl s hsmem

theorem C9_open_amended_witness :
    sortedIds [(⟨3, [.ok ⟨[], []⟩], 50, 0, 0⟩ : Segment)] = true ∧
    (∀ s ∈ (openQueue 50 (-1) 0 true [⟨3, [.ok ⟨[], []⟩], 50, 0, 0⟩] (some ⟨3, 14⟩) 7).segments,
      (∀ h2, (openQueue 50 (-1) 0 true [⟨3, [.ok ⟨[], []⟩], 50, 0, 0⟩]
          (some ⟨3, 14⟩) 7).segments.head? = some h2 → h2.id ≤ s.id) ∧
      (∀ t2, (openQueue 50 (-1) 0 true [⟨3, [.ok ⟨[], []⟩], 50, 0, 0⟩]
          (some ⟨3, 14⟩) 7).tailId = some t2 → s.id ≤ t2)) :=
  ⟨by decide,
    (C9_open_amended 50 (-1) 0 true [⟨3, [.ok ⟨[], []⟩], 50, 0, 0⟩]
      (some ⟨3, 14⟩) 7 (by decide)).2.2⟩

end Gafka
